import Mathlib

/-!
Verification of the semetrika Latin-hexameter scanner.

This file gives a shallow embedding, over `List Char`, of the scansion
pipeline in `scan.py` (normalization, tokenization, segmentation, elision,
coda analysis, scheme construction, candidate generation, metrical-sequence
search), of the batch input loop in `app.py`, and of the dictionary-building
step in `lengths.py`, together with theorems settling the specification
claims about them.

Python strings are embedded as `List Char`; Python `dict`s as association
lists in insertion order; fallible code returns `Except`.
-/

set_option maxRecDepth 8000

namespace Semetrika

/-! ## Character classes (scan.py top-level constants) -/

/-- Characters of non-word punctuation tokens (`PUNCTUATION`).
The source lists ASCII punctuation and space, four dash characters,
quotation marks, and brackets; `Char.ofNat 39` is the ASCII apostrophe. -/
def PUNCTUATION : List Char :=
  ",;.?!: ".toList ++ "‐––—".toList ++ ['"', Char.ofNat 39] ++
    "„“‚‘»«›‹".toList ++ "()[]/".toList

/-- Digit characters (`NUMBERS`). -/
def NUMBERS : List Char := "0123456789".toList

/-- Characters of non-word tokens (`NONWORD_CHARS`). -/
def NONWORD_CHARS : List Char := PUNCTUATION ++ NUMBERS

/-- Punctuation marks said (in the source comment) to prevent elision
(`NO_ELISION`).  Note: this constant is never consulted by `Verse.elide`. -/
def NO_ELISION : List Char := ";.?!".toList

/-- Vowels of unknown length (`VOWELS_UNKNOWN`). -/
def VOWELS_UNKNOWN : List Char := "aeiouyë".toList

/-- Short-marked vowels (`VOWELS_SHORT`). -/
def VOWELS_SHORT : List Char := "ăĕĭŏŭ".toList

/-- Long-marked vowels (`VOWELS_LONG`). -/
def VOWELS_LONG : List Char := "āēīōūȳ".toList

/-- All vowel characters (`VOWELS`). -/
def VOWELS : List Char := VOWELS_UNKNOWN ++ VOWELS_SHORT ++ VOWELS_LONG

/-- Consonant characters (`CONSONANTS`). -/
def CONSONANTS : List Char := "bcdfgjklmnpqrstvwxz".toList

/-- The combining breve U+0306 (second character of the Python literal
`"y̆"`). -/
def breve : Char := Char.ofNat 0x0306

/-- Characters admitted into word tokens (`WORD_CHARS`); `set("y̆")`
contributes `y` and the bare combining breve. -/
def WORD_CHARS : List Char := VOWELS ++ CONSONANTS ++ ['h'] ++ ['y', breve]

/-- Characters surviving normalization (`ALLOWED_CHARS`). -/
def ALLOWED_CHARS : List Char := NONWORD_CHARS ++ WORD_CHARS

/-- Strings always forming a diphthong (`DIPHTHONGS`). -/
def DIPHTHONGS : List (List Char) := ["ae".toList, "oe".toList, "au".toList]

/-- Words where "eu" forms a diphthong (`EU_WORDS`). -/
def EU_WORDS : List (List Char) :=
  ["neu".toList, "seu".toList, "heu".toList, "heus".toList, "ceu".toList]

/-- Words where "ui" forms a diphthong (`UI_WORDS`). -/
def UI_WORDS : List (List Char) :=
  ["cui".toList, "cuique".toList, "hui".toList, "huic".toList]

/-- Forms of esse whose initial e can be elided (`ESSE_ELISION_FORMS`). -/
def ESSE_ELISION_FORMS : List (List Char) :=
  ["est".toList, "ĕst".toList, "es".toList, "ĕs".toList]

/-- Prefixes, for the prefix+i+vowel rule (`PREFIXES`). -/
def PREFIXES : List (List Char) :=
  ["in".toList, "sub".toList, "super".toList, "ad".toList, "ante".toList,
   "circum".toList, "contra".toList, "extra".toList, "inter".toList,
   "intra".toList, "ob".toList, "per".toList, "post".toList,
   "praeter".toList, "supra".toList, "trans".toList, "ab".toList,
   "con".toList, "de".toList, "e".toList, "prae".toList, "pro".toList,
   "dis".toList, "re".toList]

/-- Mute consonants (`MUTES`). -/
def MUTES : List Char := "bpdtgcf".toList

/-- Liquid consonants (`LIQUIDS`). -/
def LIQUIDS : List Char := "lr".toList

/-- Muta cum liquida clusters (`MCL`). -/
def MCL : List (List Char) :=
  MUTES.flatMap (fun m => LIQUIDS.map (fun l => [m, l]))

/-! ## Diacritic dictionaries -/

/-- `ADD_MACRON`: unknown-length monophthong form to long-marked form.
Built in the source by zipping `VOWELS_UNKNOWN` with `VOWELS_LONG`
(the zip stops after the six long vowels) and adding `ë ↦ ē`. -/
def ADD_MACRON : List (List Char × List Char) :=
  [(['a'], ['ā']), (['e'], ['ē']), (['i'], ['ī']), (['o'], ['ō']),
   (['u'], ['ū']), (['y'], ['ȳ']), (['ë'], ['ē'])]

/-- `ADD_BREVE`: unknown-length monophthong form to short-marked form;
`y` maps to the two-character sequence y + combining breve. -/
def ADD_BREVE : List (List Char × List Char) :=
  [(['a'], ['ă']), (['e'], ['ĕ']), (['i'], ['ĭ']), (['o'], ['ŏ']),
   (['u'], ['ŭ']), (['ë'], ['ĕ']), (['y'], ['y', breve])]

/-- Look up a form in one of the diacritic dictionaries; the `KeyError`
case (absent key) does not occur at any call site, and is modelled as
returning the key unchanged. -/
def lookupForm (m : List (List Char × List Char)) (k : List Char) : List Char :=
  (m.lookup k).getD k

/-- `STRIP_DIACRITICS`: marked vowel character to its unknown-length form
(the two-character `y̆` key of the source dictionary is handled by the
string replacement in `strip_diacritics`). -/
def STRIP_DIACRITICS : List (Char × Char) :=
  [('ă', 'a'), ('ĕ', 'e'), ('ĭ', 'i'), ('ŏ', 'o'), ('ŭ', 'u'),
   ('ā', 'a'), ('ē', 'e'), ('ī', 'i'), ('ō', 'o'), ('ū', 'u'), ('ȳ', 'y')]

/-- Python `str.replace`: replace every (leftmost-first, non-overlapping)
occurrence of `pat` by `rep`.  Structural recursion on a fuel that starts
at the length of the text; each step consumes at least one character
(`pat` is nonempty whenever this is called with fuel), so the fuel-zero
case is only reached with the empty text. -/
def replaceAllFuel (rep : List Char) : Nat → List Char → List Char → List Char
  | 0, s, _ => s
  | fuel + 1, s, pat =>
    match s with
    | [] => []
    | c :: rest =>
      if pat.isPrefixOf (c :: rest) then
        rep ++ replaceAllFuel rep fuel ((c :: rest).drop pat.length) pat
      else c :: replaceAllFuel rep fuel rest pat

/-- Python `str.replace` (empty patterns, which no call site uses, leave
the text unchanged). -/
def replaceAll (s pat rep : List Char) : List Char :=
  if pat = [] then s else replaceAllFuel rep s.length s pat

/-- `strip_diacritics`: map long/short-marked vowels to unmarked ones,
then collapse y + combining breve to y. -/
def strip_diacritics (text : List Char) : List Char :=
  let stripped := text.map (fun c =>
    if c ∈ VOWELS_LONG ∨ c ∈ VOWELS_SHORT
    then ((STRIP_DIACRITICS.lookup c).getD c) else c)
  replaceAll stripped ['y', breve] ['y']

/-- `CONVERT_ACUTE` together with the upper-case replacements performed in
`Verse.normalize`: the source iterates single-character `str.replace`
calls over disjoint sources, which is the same as one character map. -/
def acuteToMacron (c : Char) : Char :=
  (([('á', 'ā'), ('é', 'ē'), ('í', 'ī'), ('ó', 'ō'), ('ú', 'ū'), ('ý', 'ȳ'),
     ('Á', 'Ā'), ('É', 'Ē'), ('Í', 'Ī'), ('Ó', 'Ō'), ('Ú', 'Ū'), ('Ý', 'Ȳ')]
    ).lookup c).getD c

/-- `CONVERT_LIGATURE`, in dict insertion order.  The third key is the
three-character string comma, space, Œ — exactly as written in the source
(`LIGATURES = ("Æ", "æ", ", Œ", "œ")`). -/
def CONVERT_LIGATURE : List (List Char × List Char) :=
  [("Æ".toList, "Ae".toList), ("æ".toList, "ae".toList),
   (", Œ".toList, "Oe".toList), ("œ".toList, "oe".toList)]

/-! ## Case handling

Python's `str.lower` / `str.isupper` are modelled for the character
repertoire this program can meet (ASCII letters and the precomposed
accented vowels and ligatures above); other characters are untouched /
not upper-case. -/

/-- Upper-case to lower-case table. -/
def UPPER_TO_LOWER : List (Char × Char) :=
  ((List.range 26).map (fun i => (Char.ofNat (65 + i), Char.ofNat (97 + i)))) ++
  [('Ā', 'ā'), ('Ē', 'ē'), ('Ī', 'ī'), ('Ō', 'ō'), ('Ū', 'ū'), ('Ȳ', 'ȳ'),
   ('Ă', 'ă'), ('Ĕ', 'ĕ'), ('Ĭ', 'ĭ'), ('Ŏ', 'ŏ'), ('Ŭ', 'ŭ'),
   ('Á', 'á'), ('É', 'é'), ('Í', 'í'), ('Ó', 'ó'), ('Ú', 'ú'), ('Ý', 'ý'),
   ('Ë', 'ë'), ('Æ', 'æ'), ('Œ', 'œ')]

/-- Python `str.lower`, one character. -/
def pyLower (c : Char) : Char := (UPPER_TO_LOWER.lookup c).getD c

/-- Python `str.isupper`, one character. -/
def pyIsUpper (c : Char) : Bool := (UPPER_TO_LOWER.lookup c).isSome

/-- Python whitespace stripped by `str.strip` (modelled by the common
ASCII whitespace characters). -/
def pyWS : List Char := [' ', '\t', '\n', '\r']

/-- Python `str.strip`. -/
def pyStrip (s : List Char) : List Char :=
  ((s.dropWhile (fun c => c ∈ pyWS)).reverse.dropWhile (fun c => c ∈ pyWS)).reverse

/-! ## Unicode NFC

Modelled from the library call `unicodedata.normalize("NFC", ...)`:
canonical composition restricted to the base + combining-mark pairs that
matter for this program's alphabet (macron, breve, acute, diaeresis on
Latin vowels).  Unicode has no precomposed y/Y + breve, so those pairs are
absent, exactly as the source comment notes; a combining mark after any
other base character (for example b + breve) is left as two characters,
as NFC leaves it. -/

/-- Composition pairs: (base, combining mark) to the precomposed character. -/
def NFC_COMPOSE : List ((Char × Char) × Char) :=
  [(('a', Char.ofNat 0x0304), 'ā'), (('e', Char.ofNat 0x0304), 'ē'),
   (('i', Char.ofNat 0x0304), 'ī'), (('o', Char.ofNat 0x0304), 'ō'),
   (('u', Char.ofNat 0x0304), 'ū'), (('y', Char.ofNat 0x0304), 'ȳ'),
   (('A', Char.ofNat 0x0304), 'Ā'), (('E', Char.ofNat 0x0304), 'Ē'),
   (('I', Char.ofNat 0x0304), 'Ī'), (('O', Char.ofNat 0x0304), 'Ō'),
   (('U', Char.ofNat 0x0304), 'Ū'), (('Y', Char.ofNat 0x0304), 'Ȳ'),
   (('a', Char.ofNat 0x0306), 'ă'), (('e', Char.ofNat 0x0306), 'ĕ'),
   (('i', Char.ofNat 0x0306), 'ĭ'), (('o', Char.ofNat 0x0306), 'ŏ'),
   (('u', Char.ofNat 0x0306), 'ŭ'),
   (('A', Char.ofNat 0x0306), 'Ă'), (('E', Char.ofNat 0x0306), 'Ĕ'),
   (('I', Char.ofNat 0x0306), 'Ĭ'), (('O', Char.ofNat 0x0306), 'Ŏ'),
   (('U', Char.ofNat 0x0306), 'Ŭ'),
   (('a', Char.ofNat 0x0301), 'á'), (('e', Char.ofNat 0x0301), 'é'),
   (('i', Char.ofNat 0x0301), 'í'), (('o', Char.ofNat 0x0301), 'ó'),
   (('u', Char.ofNat 0x0301), 'ú'), (('y', Char.ofNat 0x0301), 'ý'),
   (('A', Char.ofNat 0x0301), 'Á'), (('E', Char.ofNat 0x0301), 'É'),
   (('I', Char.ofNat 0x0301), 'Í'), (('O', Char.ofNat 0x0301), 'Ó'),
   (('U', Char.ofNat 0x0301), 'Ú'), (('Y', Char.ofNat 0x0301), 'Ý'),
   (('e', Char.ofNat 0x0308), 'ë'), (('E', Char.ofNat 0x0308), 'Ë')]

/-- One left-to-right canonical-composition pass. -/
def nfc : List Char → List Char
  | [] => []
  | [c] => [c]
  | c1 :: c2 :: rest =>
    match NFC_COMPOSE.lookup (c1, c2) with
    | some comp => comp :: nfc rest
    | none => c1 :: nfc (c2 :: rest)

/-! ## Data model -/

/-- Segment kind tags. -/
inductive SegType
  | vowel
  | consonant
  | h
  | other
deriving DecidableEq, Repr

/-- Vowel subtypes. -/
inductive SubType
  | monophthong
  | diphthong
  | nasal
deriving DecidableEq, Repr

/-- Vowel length verdicts. -/
inductive VLen
  | long
  | short
  | unknown
deriving DecidableEq, Repr

/-- Coda classifications. -/
inductive CodaT
  | copen
  | cclosed
  | cunknown
deriving DecidableEq, Repr

/-- `Segment`: a phonological unit.  The Python `elided` attribute only
ever holds `None` or `True` and is read with `not`, so it is modelled as
a `Bool` defaulting to `false`. -/
structure Segment where
  lowercase_form : List Char
  original_case : List Char
  type_ : SegType
  subtype : Option SubType := none
  length : Option VLen := none
  coda : Option CodaT := none
  elided : Bool := false
deriving DecidableEq, Repr

/-- Token kinds. -/
inductive TokType
  | word
  | other
deriving DecidableEq, Repr

/-- `Token`: a word or a single non-word character. -/
structure Token where
  original_form : List Char
  original_cases : List Char
  lowercase_form : List Char
  type_ : TokType
  segments : List Segment := []
deriving DecidableEq, Repr

/-- The per-character case mask of `Token.normalize_cases`. -/
def caseOf (c : Char) : Char := if pyIsUpper c then 'U' else 'L'

/-- Build a token; `Token.__init__` immediately runs `normalize_cases`,
which fills the case mask and the lower-case form. -/
def mkToken (original : List Char) (t : TokType) : Token :=
  { original_form := original
    original_cases := original.map caseOf
    lowercase_form := original.map pyLower
    type_ := t }

/-- Errors raised by the embedded code: the `ValueError` of
`Token.segmentize` (unanalysable character) and the `IndexError` that
`Token.add_lengths` hits when a dictionary entry has fewer slots than the
word has monophthongs. -/
inductive ScanErr
  | cannotAnalyse (c : Char)
  | indexError
deriving DecidableEq, Repr

/-! ## Segmentation (`Token.segmentize`) -/

/-- One step of the segmentation scan at position `i` of the
sentinel-padded form `' ' :: w ++ [' ']`: the ordered rule table of
`Token.segmentize`, returning the new segments and whether two characters
were consumed (Python advances `new_i` by 1 or by 2). -/
def segStep (w cases : List Char) (i : Nat) : Except ScanErr (List Segment × Bool) :=
  let form : List Char := (' ' :: w) ++ [' ']
  let fcases : List Char := (' ' :: cases) ++ [' ']
  let prev := form.getD (i - 1) ' '
  let char := form.getD i ' '
  let next_ := form.getD (i + 1) ' '
  let char_case := fcases.getD i ' '
  let next_case := fcases.getD (i + 1) ' '
  -- diphthongs
  if [char, next_] ∈ DIPHTHONGS ∨
      ([char, next_] = ['e', 'u'] ∧ w ∈ EU_WORDS) ∨
      ([char, next_] = ['u', 'i'] ∧ w ∈ UI_WORDS) then
    .ok ([{ lowercase_form := [char, next_], original_case := [char_case, next_case],
            type_ := .vowel, subtype := some .diphthong }], true)
  -- final nasal vowels
  else if char ∈ VOWELS ∧ form.drop (i + 1) = ['m', ' '] then
    .ok ([{ lowercase_form := [char, next_], original_case := [char_case, next_case],
            type_ := .vowel, subtype := some .nasal }], true)
  -- i as a consonant before a vowel, initially or after a prefix
  else if char = 'i' ∧ next_ ∈ VOWELS ∧ (i = 1 ∨ (form.take i).drop 1 ∈ PREFIXES) then
    .ok ([{ lowercase_form := ['i'], original_case := [char_case], type_ := .consonant }], false)
  -- i or j as two consonants between two vowels (the slices are the
  -- Python `form[i-2:i]` and `form[i-3:i]`; for the indices where they
  -- would clip differently, the guard `prev ∈ VOWELS` already fails)
  else if (char = 'i' ∨ char = 'j') ∧ prev ∈ VOWELS ∧ next_ ∈ VOWELS ∧
      (form.take i).drop (i - 2) ≠ ['q', 'u'] ∧
      (form.take i).drop (i - 3) ≠ ['n', 'g', 'u'] then
    .ok ([{ lowercase_form := [], original_case := [], type_ := .consonant },
          { lowercase_form := [char], original_case := [char_case], type_ := .consonant }], false)
  -- qu is a single consonant
  else if char = 'q' ∧ next_ = 'u' then
    .ok ([{ lowercase_form := ['q', 'u'], original_case := [char_case, next_case],
            type_ := .consonant }], true)
  -- gu after n and before a vowel is a single consonant
  else if prev = 'n' ∧ char = 'g' ∧ next_ = 'u' ∧ form.getD (i + 2) ' ' ∈ VOWELS then
    .ok ([{ lowercase_form := ['g', 'u'], original_case := [char_case, next_case],
            type_ := .consonant }], true)
  -- x and z are two consonants
  else if char = 'x' ∨ char = 'z' then
    .ok ([{ lowercase_form := [], original_case := [], type_ := .consonant },
          { lowercase_form := [char], original_case := [char_case], type_ := .consonant }], false)
  -- h gets its own type
  else if char = 'h' then
    .ok ([{ lowercase_form := ['h'], original_case := [char_case], type_ := .h }], false)
  -- y with combining breve
  else if char = 'y' ∧ next_ = breve then
    .ok ([{ lowercase_form := ['y', breve], original_case := [char_case, next_case],
            type_ := .vowel, subtype := some .monophthong, length := some .short }], true)
  -- other vowels
  else if char ∈ VOWELS then
    .ok ([{ lowercase_form := [char], original_case := [char_case],
            type_ := .vowel, subtype := some .monophthong,
            length := some (if char ∈ VOWELS_LONG then VLen.long
              else if char ∈ VOWELS_SHORT then VLen.short else VLen.unknown) }], false)
  -- other consonants
  else if char ∈ CONSONANTS then
    .ok ([{ lowercase_form := [char], original_case := [char_case], type_ := .consonant }], false)
  else
    .error (.cannotAnalyse char)

/-- The `while form[i] != " "` loop of `Token.segmentize`, collecting
segments.  Structural recursion on a fuel: the scan advances at least one
position per step and stops at the first space, so a fuel of
`w.length + 2` (the padded form's length, supplied by `segmentizeToken`)
is never exhausted; the fuel-zero fallback is unreachable. -/
def segLoop (w cases : List Char) : Nat → Nat → Except ScanErr (List Segment)
  | fuel, i =>
    let form : List Char := (' ' :: w) ++ [' ']
    if form.getD i ' ' = ' ' then .ok []
    else
      match fuel with
      | 0 => .ok []
      | fuel + 1 =>
        match segStep w cases i with
        | .error e => .error e
        | .ok (new, two) =>
          match segLoop w cases fuel (i + (if two then 2 else 1)) with
          | .error e => .error e
          | .ok segs => .ok (new ++ segs)

/-- `Token.segmentize`: non-word tokens become one `other` segment; word
tokens are scanned by the rule table. -/
def segmentizeToken (t : Token) : Except ScanErr Token :=
  match t.type_ with
  | .other =>
    .ok { t with segments := [{ lowercase_form := t.lowercase_form,
                                original_case := t.original_cases, type_ := .other }] }
  | .word =>
    match segLoop t.lowercase_form t.original_cases (t.lowercase_form.length + 2) 1 with
    | .error e => .error e
    | .ok segs => .ok { t with segments := segs }

/-! ## Length marking (`Token.brevize`, `Token.add_lengths`) -/

/-- `Token.brevize`: unknown monophthongs become short. -/
def brevize (t : Token) : Token :=
  { t with segments := t.segments.map (fun s =>
      if s.subtype = some .monophthong ∧ s.length = some .unknown then
        { s with length := some .short, lowercase_form := lookupForm ADD_BREVE s.lowercase_form }
      else s) }

/-- The body of the `Token.add_lengths` branch that resolves one unknown
monophthong to the dictionary verdict `v`: set the length and add the
macron (long) or — after extending the case mask for the two-character
y+breve form — the breve (short). -/
def resolveSegment (v : VLen) (s : Segment) : Segment :=
  let s1 : Segment := { s with length := some v }
  if v = VLen.long then
    { s1 with lowercase_form := lookupForm ADD_MACRON s1.lowercase_form }
  else if v = VLen.short then
    let s2 := if s1.lowercase_form = ['y']
      then { s1 with original_case := s1.original_case ++ ['L'] } else s1
    { s2 with lowercase_form := lookupForm ADD_BREVE s2.lowercase_form }
  else s1

/-- The segment loop of `Token.add_lengths`, threading the monophthong
index; the Python `IndexError` (dictionary entry shorter than the number
of monophthongs) is raised exactly where Python would index out of
range. -/
def addLengthsSegs (entry : List VLen) : Nat → List Segment → Except ScanErr (List Segment)
  | _, [] => .ok []
  | mi, s :: rest =>
    if s.subtype = some SubType.monophthong then
      if s.length = some VLen.unknown then
        match entry.get? mi with
        | none => .error .indexError
        | some v =>
          if v ≠ VLen.unknown then
            (addLengthsSegs entry (mi + 1) rest).map (resolveSegment v s :: ·)
          else (addLengthsSegs entry (mi + 1) rest).map (s :: ·)
      else (addLengthsSegs entry (mi + 1) rest).map (s :: ·)
    else (addLengthsSegs entry mi rest).map (s :: ·)

/-- `Token.add_lengths` for a present (non-`None`) dictionary: look the
diacritic-stripped form up and resolve unknown monophthongs. -/
def add_lengths (ld : List (List Char × List VLen)) (t : Token) : Except ScanErr Token :=
  let word := strip_diacritics t.lowercase_form
  match ld.lookup word with
  | none => .ok t
  | some entry => (addLengthsSegs entry 0 t.segments).map (fun segs => { t with segments := segs })

/-- The length-marking step of the `Verse.__init__` token loop: brevize
when `unmarked_short`; otherwise add learned lengths when a length
dictionary is present and non-empty (Python dict truthiness); otherwise
leave the token alone. -/
def lengthMark (ld : Option (List (List Char × List VLen))) (us : Bool)
    (t : Token) : Except ScanErr Token :=
  if us then pure (brevize t)
  else
    match ld with
    | some d => if d ≠ [] then add_lengths d t else pure t
    | none => pure t

/-- The per-token preparation loop of `Verse.__init__`: segmentize, then
mark lengths. -/
def prepareTokens (ld : Option (List (List Char × List VLen))) (us : Bool) :
    List Token → Except ScanErr (List Token)
  | [] => .ok []
  | t :: rest => do
    let t1 ← segmentizeToken t
    let t2 ← lengthMark ld us t1
    let rest2 ← prepareTokens ld us rest
    pure (t2 :: rest2)

/-! ## Normalization and tokenization (`Verse.normalize`, `Verse.tokenize`) -/

/-- `Verse.normalize`: strip, NFC-compose, convert acutes to macrons,
convert ligatures (in dict order), and keep only allowed characters. -/
def normalize (original : List Char) : List Char :=
  let n0 := pyStrip original
  let n1 := nfc n0
  let n2 := n1.map acuteToMacron
  let n3 := CONVERT_LIGATURE.foldl (fun acc p => replaceAll acc p.1 p.2) n2
  n3.filter (fun c => decide (pyLower c ∈ ALLOWED_CHARS))

/-- The accumulator loop of `Verse.tokenize` over the sentinel-extended
text. -/
def tokenizeLoop : List Char → List Char → List Token → List Token
  | [], _, acc => acc
  | c :: rest, word, acc =>
    if pyLower c ∉ WORD_CHARS then
      let acc1 := if word ≠ [] then acc ++ [mkToken word .word] else acc
      tokenizeLoop rest [] (acc1 ++ [mkToken [c] .other])
    else tokenizeLoop rest (word ++ [c]) acc

/-- `Verse.tokenize`: split the normalized text into word and non-word
tokens; the trailing sentinel token is dropped. -/
def tokenize (normalized : List Char) : List Token :=
  (tokenizeLoop (normalized ++ [' ']) [] []).dropLast

/-! ## Elision (`Verse.elide`) -/

/-- Update the last segment of a token. -/
def elideLast (t : Token) (f : Segment → Segment) : Token :=
  { t with segments := match t.segments.getLast? with
      | none => t.segments
      | some s => t.segments.dropLast ++ [f s] }

/-- Update the first segment of a token. -/
def elideFirst (t : Token) (f : Segment → Segment) : Token :=
  { t with segments := match t.segments with
      | [] => []
      | s :: rest => f s :: rest }

/-- One iteration of the `Verse.elide` loop for an adjacent pair of word
tokens at positions `p.1 < p.2`. -/
def elidePair (tokens : List Token) (p : Nat × Nat) : List Token :=
  match tokens.get? p.1, tokens.get? p.2 with
  | some word, some next_word =>
    -- interjection "o" cannot be elided
    if word.lowercase_form = ['o'] ∨ word.lowercase_form = ['ō'] then tokens
    else
      match word.segments.getLast?, next_word.segments.head? with
      | some lastSeg, some firstSeg =>
        let vowel_ending := lastSeg.type_ = SegType.vowel
        let vowel_start := firstSeg.type_ = SegType.vowel
        let h_start := firstSeg.type_ = SegType.h
        if vowel_ending ∧ (vowel_start ∨ h_start) then
          if next_word.lowercase_form ∈ ESSE_ELISION_FORMS then
            -- the "e" of es(t) is elided
            tokens.set p.2 (elideFirst next_word (fun s =>
              { s with lowercase_form := '(' :: s.lowercase_form ++ [')'],
                       elided := true,
                       original_case := 'L' :: s.original_case ++ ['L'] }))
          else
            -- the final vowel of the first word (plus an initial h) is
            let tokens1 := tokens.set p.1 (elideLast word (fun s =>
              if h_start then
                { s with lowercase_form := '(' :: s.lowercase_form,
                         original_case := 'L' :: s.original_case, elided := true }
              else
                { s with lowercase_form := '(' :: s.lowercase_form ++ [')'],
                         original_case := 'L' :: s.original_case ++ ['L'],
                         elided := true }))
            if h_start then
              tokens1.set p.2 (elideFirst next_word (fun s =>
                { s with lowercase_form := s.lowercase_form ++ [')'],
                         original_case := s.original_case ++ ['L'], elided := true }))
            else tokens1
        else tokens
      | _, _ => tokens   -- unreachable: word tokens have at least one segment
  | _, _ => tokens

/-- Indices of word tokens. -/
def wordIds (tokens : List Token) : List Nat :=
  (tokens.enum.filter (fun p => decide (p.2.type_ = TokType.word))).map (·.1)

/-- `Verse.elide`: run `elidePair` over each pair of adjacent word
tokens. -/
def elide (tokens : List Token) : List Token :=
  let wids := wordIds tokens
  (wids.zip wids.tail).foldl elidePair tokens

/-! ## Coda analysis (`Verse.analyse_codas`) -/

/-- Classify the coda of the vowel preceding a consonant `chunk` of
`count` segments (the body of `Verse.analyse_codas` at each new
non-elided vowel). -/
def classifyCoda (count : Nat) (chunk : List Char) : CodaT :=
  if count ≤ 1 ∨ chunk.head? = some ' ' then .copen
  else if chunk ∈ MCL then .cunknown
  else .cclosed

/-- The single pass of `Verse.analyse_codas` over the flattened segment
list.  The Python code mutates the previous vowel in place; here the
previous vowel is carried as `pending` together with the `buffer` of
segments already seen after it, and is emitted, with its coda set, when
the next non-elided vowel (or the end) is reached.  A `pending` of `none`
plays the part of the initial sentinel `Segment()`, whose classification
the source discards. -/
def codaLoop (pending : Option Segment) (count : Nat) (chunk : List Char)
    (buffer : List Segment) : List Segment → List Segment
  | [] =>
    let fin := if count = 0 then CodaT.copen else CodaT.cclosed
    (match pending with
     | none => []
     | some v => [{ v with coda := some fin }]) ++ buffer
  | s :: rest =>
    if s.type_ = SegType.consonant then
      codaLoop pending (count + 1) (chunk ++ s.lowercase_form) (buffer ++ [s]) rest
    else if s.lowercase_form = [' '] then
      codaLoop pending count (chunk ++ [' ']) (buffer ++ [s]) rest
    else if s.type_ = SegType.vowel ∧ s.elided = false then
      ((match pending with
        | none => []
        | some v => [{ v with coda := some (classifyCoda count chunk) }]) ++ buffer) ++
      codaLoop (some s) 0 [] [] rest
    else
      codaLoop pending count chunk (buffer ++ [s]) rest

/-- Distribute a flat segment list back over the tokens (the Python code
mutates segments in place; the pass preserves the number and order of
segments, so each token takes back as many segments as it contributed). -/
def reassemble : List Token → List Segment → List Token
  | [], _ => []
  | t :: ts, segs =>
    { t with segments := segs.take t.segments.length } ::
      reassemble ts (segs.drop t.segments.length)

/-- `Verse.analyse_codas`. -/
def analyse_codas (tokens : List Token) : List Token :=
  reassemble tokens (codaLoop none 0 [] [] (tokens.flatMap (·.segments)))

/-! ## Weight scheme (`Verse.make_scheme`) -/

/-- The weight character the scheme gets for one non-elided vowel. -/
def vowelWeight (s : Segment) : Char :=
  if s.subtype = some SubType.diphthong ∨ s.subtype = some SubType.nasal ∨
      s.length = some VLen.long ∨ s.coda = some CodaT.cclosed then '-'
  else if s.length = some VLen.short ∧ s.coda = some CodaT.copen then 'u'
  else 'o'

/-- `Verse.make_scheme`: one character per non-elided vowel segment, in
order over all tokens. -/
def make_scheme (tokens : List Token) : List Char :=
  (tokens.flatMap (·.segments)).filterMap (fun s =>
    if s.type_ = SegType.vowel ∧ s.elided = false then some (vowelWeight s) else none)

/-! ## Candidate sequences (`Verse.generate_candidate_sequences`) -/

/-- The recursive expansion of `generate_candidate_sequences`: replace
each 'o' by '-' and by 'u'.  The source accumulates into a set; distinct
expansion paths give distinct strings, and set semantics are restored by
the `dedup` in `find_metrical`. -/
def addCandidate (seq : List Char) : List Char → List (List Char)
  | [] => [seq]
  | c :: rest =>
    if c = 'o' then addCandidate (seq ++ ['-']) rest ++ addCandidate (seq ++ ['u']) rest
    else addCandidate (seq ++ [c]) rest

/-- `Verse.generate_candidate_sequences`. -/
def generate_candidate_sequences (scheme : List Char) : List (List Char) :=
  addCandidate [] scheme

/-! ## The meter (`Meter.generate_metrical_sequences`, `HEXAMETER`) -/

/-- The metrical-scheme alphabet (`ELEMENTS`). -/
def ELEMENTS : List Char := "ow-u|".toList

/-- Syllable lengths of a full pattern (drop feet boundaries): the
`sequence_lengths` computation. -/
def seqLengthsOnly (seq : List Char) : List Char :=
  seq.filter (fun c => decide (c = '-' ∨ c = 'u'))

/-- Python dict assignment `d[k] = v` on an association list. -/
def dictInsert (d : List (List Char × List Char)) (k v : List Char) :
    List (List Char × List Char) :=
  if d.any (fun p => p.1 == k) then d.map (fun p => if p.1 = k then (k, v) else p)
  else d ++ [(k, v)]

/-- The recursive `add_sequence` of `Meter.generate_metrical_sequences`,
threading the dict being built ('-' branch before 'u'/'uu' branch, as in
the source). -/
def addSequence (seq : List Char) (rem : List Char)
    (acc : List (List Char × List Char)) : List (List Char × List Char) :=
  match rem with
  | [] => dictInsert acc (seqLengthsOnly seq) seq
  | e :: rest =>
    if e = 'o' then addSequence (seq ++ ['u']) rest (addSequence (seq ++ ['-']) rest acc)
    else if e = 'w' then addSequence (seq ++ ['u', 'u']) rest (addSequence (seq ++ ['-']) rest acc)
    else addSequence (seq ++ [e]) rest acc

/-- The hexameter scheme string passed to `Meter`. -/
def HEXAMETER_scheme : List Char := "-w | -w | -w | -w | -uu | -o".toList

/-- `HEXAMETER.sequences`: map from length-only pattern to full pattern,
in insertion order. -/
def HEXAMETER_sequences : List (List Char × List Char) :=
  addSequence [] (HEXAMETER_scheme.filter (fun c => decide (c ∈ ELEMENTS))) []

/-- The keys (legal length-only patterns) of `HEXAMETER.sequences`. -/
def HEXkeys : List (List Char) := HEXAMETER_sequences.map (·.1)

/-! ## Metrical sequences (`Verse.find_metrical_sequences`) -/

/-- Lexicographic string comparison (Python string `<=` on code points). -/
def seqLe : List Char → List Char → Bool
  | [], _ => true
  | _ :: _, [] => false
  | a :: as_, b :: bs => if a = b then seqLe as_ bs else decide (a < b)

/-- `seqLe` as a relation, for the sorting lemmas. -/
def seqR (a b : List Char) : Prop := seqLe a b = true

instance : DecidableRel seqR := fun a b => inferInstanceAs (Decidable (_ = true))

/-- The inner `merge_sequences` of `Verse.find_metrical_sequences`: merge
adjacent sequences that differ only in their final element into one
sequence ending in 'o'. -/
def merge_sequences : List (List Char) → List (List Char)
  | [] => []
  | [x] => [x]
  | x :: y :: rest =>
    if x.length = y.length ∧ x.dropLast = y.dropLast then
      (x.dropLast ++ ['o']) :: merge_sequences rest
    else x :: merge_sequences (y :: rest)

/-- `Verse.find_metrical_sequences`: intersect the candidate set with the
legal patterns, sort (Python `sorted` of a set: sort the deduplicated
list), read the corresponding full patterns off the dict in its insertion
order, and merge both lists.  Returns (metrical_sequences,
full_metrical_sequences). -/
def find_metrical (cands : List (List Char)) : List (List Char) × List (List Char) :=
  let inter := (cands.filter (fun s => decide (s ∈ HEXkeys))).dedup
  let pre := List.insertionSort seqR inter
  let fullPre := (HEXAMETER_sequences.filter (fun p => decide (p.1 ∈ pre))).map (·.2)
  (merge_sequences pre, merge_sequences fullPre)

/-! ## The verse pipeline (`Verse.__init__`) -/

/-- The analysed state of a verse after `Verse.__init__` (without the
rendering step `scan`, which no claim concerns). -/
structure VerseResult where
  normalized_form : List Char
  tokens : List Token
  scheme : List Char
  candidate_sequences : List (List Char)
  metrical_sequences : List (List Char)
  full_metrical_sequences : List (List Char)
deriving DecidableEq, Repr

/-- `Verse.__init__` (with `idle=False`): normalize, tokenize, segmentize
(+ optional length marking), elide, analyse codas, build the scheme, the
candidates and the metrical sequences. -/
def verse (original : List Char) (ld : Option (List (List Char × List VLen)))
    (unmarked_short : Bool) : Except ScanErr VerseResult :=
  let n := normalize original
  match prepareTokens ld unmarked_short (tokenize n) with
  | .error e => .error e
  | .ok toks0 =>
    let toks1 := elide toks0
    let toks := analyse_codas toks1
    let scheme := make_scheme toks
    let cands := generate_candidate_sequences scheme
    let pair := find_metrical cands
    .ok { normalized_form := n, tokens := toks, scheme := scheme,
          candidate_sequences := cands,
          metrical_sequences := pair.1, full_metrical_sequences := pair.2 }

/-! ## The batch loop (`app.py`) -/

/-- The input loop of `app.py`: each line becomes a `Verse` and is
printed.  There is no per-line exception handler, so an error raised
while building one verse propagates and ends the loop: the result is the
list of verse results produced before the failure, and the error if one
occurred (output is modelled by the `VerseResult` each line produces). -/
def runBatch (ld : Option (List (List Char × List VLen))) (us : Bool) :
    List (List Char) → List VerseResult × Option ScanErr
  | [] => ([], none)
  | line :: rest =>
    match verse line ld us with
    | .error e => ([], some e)
    | .ok v =>
      let r := runBatch ld us rest
      (v :: r.1, r.2)

/-! ## Length dictionary learning (`lengths.py`) -/

/-- Frequency tallies of one vowel slot. -/
structure Tally where
  long : Nat
  short : Nat
  unknown : Nat
deriving DecidableEq, Repr

/-- The per-vowel verdict of `LengthDictionary.make_length_dictionary`. -/
def vowelVerdict (minimal_frequency maximum_of_contradictions : Nat) (t : Tally) : VLen :=
  if minimal_frequency ≤ t.long ∧ t.short ≤ maximum_of_contradictions then .long
  else if minimal_frequency ≤ t.short ∧ t.long ≤ maximum_of_contradictions then .short
  else .unknown

/-- `LengthDictionary.make_length_dictionary`: per word, map each vowel
slot to its verdict, and keep the word only if at least one slot is
safely long or short (the `safe` flag of the source is set exactly in
the long/short branches). -/
def make_length_dictionary (minimal_frequency maximum_of_contradictions : Nat)
    (freqs : List (List Char × List Tally)) : List (List Char × List VLen) :=
  freqs.filterMap (fun wv =>
    let vowel_lengths := wv.2.map (vowelVerdict minimal_frequency maximum_of_contradictions)
    if vowel_lengths.any (fun v => v ≠ VLen.unknown) then some (wv.1, vowel_lengths)
    else none)

/-! ## Derived notions used in the claim statements -/

/-- The number of vowel segments not marked elided, across all tokens of a
verse in order. -/
def countNonElidedVowels (tokens : List Token) : Nat :=
  ((tokens.flatMap (·.segments)).filter
    (fun s => decide (s.type_ = SegType.vowel ∧ s.elided = false))).length

/-- Delete every foot-boundary character from a full pattern. -/
def stripBars (l : List Char) : List Char := l.filter (fun c => decide (c ≠ '|'))

/-- Every combining breve in the list sits immediately after a y. -/
def BrevesAfterY (w : List Char) : Prop :=
  ∀ j, w[j]? = some breve → ∃ k, j = k + 1 ∧ w[k]? = some 'y'

/-- Projection of a segment to everything except its coda. -/
def segKey (s : Segment) :
    List Char × List Char × SegType × Option SubType × Option VLen × Bool :=
  (s.lowercase_form, s.original_case, s.type_, s.subtype, s.length, s.elided)

/-- Token lists in which every segment of a word token spelled o or ō is
an unelided vowel. -/
def oProtected (tokens : List Token) : Prop :=
  ∀ t ∈ tokens, (t.lowercase_form = ['o'] ∨ t.lowercase_form = ['ō']) →
    ∀ s ∈ t.segments, s.elided = false ∧ s.type_ = SegType.vowel

/-- The shape of every token `Verse.tokenize` can produce: a word token
built from a nonempty run of word characters, or a one-character non-word
token. -/
def TokenizerForm (t : Token) : Prop :=
  (∃ w, t = mkToken w TokType.word ∧ w ≠ [] ∧ ∀ c ∈ w, pyLower c ∈ WORD_CHARS) ∨
  (∃ c, t = mkToken [c] TokType.other ∧ pyLower c ∉ WORD_CHARS)

/-- The erased verse result used as the default of `vOf`. -/
def emptyVerseResult : VerseResult :=
  { normalized_form := [], tokens := [], scheme := [], candidate_sequences := [],
    metrical_sequences := [], full_metrical_sequences := [] }

/-- The verse result of a line analysed with no length dictionary (for the
concrete witnesses below). -/
def vOf (s : List Char) : VerseResult :=
  match verse s none false with
  | .ok v => v
  | .error _ => emptyVerseResult

/-- Concrete input: two vowel-words separated by a semicolon, a
punctuation mark in `NO_ELISION`. -/
def c1input : List Char := "a; e".toList

/-- Concrete input: seventeen syllables reading long short short (five
times), long, then a final open unknown syllable. -/
def c2input : List Char := "cā că că rā ră ră tā tă tă pā pă pă sā să să tā ta".toList

/-- The single merged reading of `c2input`. -/
def c2seq : List Char := "-uu-uu-uu-uu-uu-o".toList

/-- Concrete input whose only word is the letter b followed by a bare
combining breve: every character is admitted by the tokenizer, but the
breve matches no segmentation rule. -/
def badLine : List Char := "ab".toList ++ [breve]

/-- A concrete well-formed input line. -/
def goodLine : List Char := "pa".toList

/-- Concrete input: the word y + combining breve (the one two-character
vowel spelling the segmenter knows). -/
def yInput : List Char := ['y', breve]

/-- Concrete input: short-marked ŏ before a vowel-initial word. -/
def c6input : List Char := "ŏ a".toList

/-- Concrete input: long-marked ō (the vocative interjection) before a
vowel-initial word. -/
def c6winput : List Char := "ō amīce".toList

/-- Concrete input: the opening line of the Aeneid, macronized. -/
def armaInput : List Char := "arma virumque canō Trōiae quī prīmus ab ōrīs".toList

/-! # Theorems -/

/-! ## Inversion of the verse pipeline -/

lemma verse_ok_parts {original : List Char} {ld : Option (List (List Char × List VLen))}
    {us : Bool} {v : VerseResult} (h : verse original ld us = .ok v) :
    ∃ toks0, prepareTokens ld us (tokenize (normalize original)) = .ok toks0 ∧
      v.tokens = analyse_codas (elide toks0) ∧
      v.scheme = make_scheme v.tokens ∧
      v.candidate_sequences = generate_candidate_sequences v.scheme ∧
      v.metrical_sequences = (find_metrical v.candidate_sequences).1 ∧
      v.full_metrical_sequences = (find_metrical v.candidate_sequences).2 := by
  simp only [verse] at h
  cases hp : prepareTokens ld us (tokenize (normalize original)) with
  | error e => rw [hp] at h; simp at h
  | ok toks0 =>
    rw [hp] at h
    simp only [Except.ok.injEq] at h
    subst h
    exact ⟨toks0, rfl, rfl, rfl, rfl, rfl, rfl⟩

/-! ## C1 -/

/-- C1: the claim says elision never triggers across an intervening
punctuation token from the closed set `NO_ELISION` = {';', '.', '?', '!'}.
The code never consults `NO_ELISION`: on the input "a; e", whose two word
tokens are separated by a semicolon token (and a space token), the final
vowel of the first word is nevertheless marked elided. -/
theorem elide_ignores_no_elision_punctuation :
    ';' ∈ NO_ELISION ∧
    (verse c1input none false).map (fun v =>
        v.tokens.map (fun t => (t.original_form, t.segments.map (·.elided)))) =
      .ok [(['a'], [true]), ([';'], [false]), ([' '], [false]), (['e'], [false])] :=
  ⟨by decide, by rfl⟩

/-! ## C9 -/

/-- C9: the claim says normalization replaces each of æ, Æ, œ, Œ by its
two-letter equivalent and drops none of them.  Three of the four are
replaced, but the `LIGATURES` tuple misspells the capital Œ key as the
three-character string ", Œ", so a bare Œ is not converted and is then
silently dropped by the character whitelist: `normalize "Œta"` loses the
Œ entirely. -/
theorem normalize_drops_capital_oe_ligature :
    normalize ("Æ".toList) = "Ae".toList ∧
    normalize ("æ".toList) = "ae".toList ∧
    normalize ("œ".toList) = "oe".toList ∧
    normalize ("Œ".toList) = [] ∧
    normalize ("Œta".toList) = "ta".toList :=
  ⟨rfl, rfl, rfl, rfl, rfl⟩

/-! ## C2, counterexample -/

/-- C2 counterexample: on `c2input` (seventeen syllables, the last of
unknown length) the two legal readings differ only in the free final
syllable and are merged into a single reading ending in 'o', which is not
a key of `HEXAMETER.sequences`. -/
theorem merged_reading_not_a_key :
    (verse c2input none false).map (·.metrical_sequences) = .ok [c2seq] ∧
    c2seq ∉ HEXkeys :=
  ⟨by rfl, by decide⟩

/-! ## C5 -/

/-- C5 counterexample: the claim says a malformed-character segmentation
failure is fatal only for its own verse and later lines are still
processed.  The input loop of `app.py` has no per-line handler: with a
failing first line, the loop ends at the error and the following
(well-formed) line produces no output at all. -/
theorem runBatch_stops_at_first_error :
    (verse goodLine none false).isOk = true ∧
    runBatch none false [badLine, goodLine] = ([], some (ScanErr.cannotAnalyse breve)) :=
  ⟨rfl, rfl⟩

/-- C5 as amended: when line `i` of a batch fails, the batch run produces
outputs only for lines before the first failure — in particular at most
`i` outputs — instead of processing all lines. -/
theorem runBatch_outputs_stop_before_failing_line
    (ld : Option (List (List Char × List VLen))) (us : Bool)
    (lines : List (List Char)) (i : Nat) (li : List Char) (e : ScanErr)
    (h1 : lines[i]? = some li) (h2 : verse li ld us = .error e) :
    ((runBatch ld us lines).1).length ≤ i := by
  induction lines generalizing i with
  | nil => simp at h1
  | cons l rest ih =>
    cases i with
    | zero =>
      simp only [List.getElem?_cons_zero, Option.some.injEq] at h1
      subst h1
      simp [runBatch, h2]
    | succ j =>
      simp only [List.getElem?_cons_succ] at h1
      cases hv : verse l ld us with
      | error e' => simp [runBatch, hv]
      | ok v =>
        have := ih j h1
        simp only [runBatch, hv, List.length_cons]
        omega

/-- Witness for the amended C5 theorem at the concrete two-line batch. -/
theorem runBatch_outputs_stop_witness :
    [badLine, goodLine][0]? = some badLine ∧
    verse badLine none false = .error (ScanErr.cannotAnalyse breve) ∧
    ((runBatch none false [badLine, goodLine]).1).length ≤ 0 :=
  ⟨rfl, rfl,
    runBatch_outputs_stop_before_failing_line none false [badLine, goodLine] 0 badLine
      (ScanErr.cannotAnalyse breve) rfl rfl⟩

/-! ## C6, counterexample -/

/-- C6 counterexample: the claim protects the word o in any length-marking
state, but the guard in `Verse.elide` checks only "o" and "ō"; a
short-marked "ŏ" before a vowel-initial word is elided. -/
theorem elide_marks_short_o :
    (verse c6input none false).map (fun v =>
        v.tokens.map (fun t => (t.lowercase_form, t.segments.map (·.elided)))) =
      .ok [(['ŏ'], [true]), ([' '], [false]), (['a'], [false])] := by
  rfl

/-! ## C7 -/

/-- C7: with the default thresholds (minimal frequency 20, at most 3
contradictions), `make_length_dictionary` classifies a vowel slot with at
least 20 long and 0 short occurrences as long (and keeps its word), and
gives a slot with exactly 19 long and 1 short occurrences the verdict
unknown — neither long nor short. -/
theorem make_length_dictionary_thresholds :
    (∀ (freqs : List (List Char × List Tally)) (w : List Char) (vs : List Tally)
        (i : Nat) (t : Tally), (w, vs) ∈ freqs → vs[i]? = some t →
        20 ≤ t.long → t.short = 0 →
        (w, vs.map (vowelVerdict 20 3)) ∈ make_length_dictionary 20 3 freqs ∧
          (vs.map (vowelVerdict 20 3))[i]? = some VLen.long) ∧
    (∀ (vs : List Tally) (i : Nat) (u : Nat),
        vs[i]? = some { long := 19, short := 1, unknown := u } →
        (vs.map (vowelVerdict 20 3))[i]? = some VLen.unknown) := by
  constructor
  · intro freqs w vs i t hmem hget hlong hshort
    have hverd : vowelVerdict 20 3 t = VLen.long := by
      unfold vowelVerdict
      rw [if_pos ⟨hlong, by omega⟩]
    have hgetmap : (vs.map (vowelVerdict 20 3))[i]? = some VLen.long := by
      rw [List.getElem?_map, hget]
      simp [hverd]
    refine ⟨?_, hgetmap⟩
    simp only [make_length_dictionary]
    refine List.mem_filterMap.mpr ⟨(w, vs), hmem, ?_⟩
    simp
    exact ⟨t, List.getElem?_mem hget, by rw [hverd]; decide⟩
  · intro vs i u hget
    rw [List.getElem?_map, hget]
    have hverd : vowelVerdict 20 3 { long := 19, short := 1, unknown := u } = VLen.unknown := by
      simp [vowelVerdict]
    simp [hverd]

/-- Witness for the C7 theorem at a one-word frequency table with slots
(20 long, 0 short) and (19 long, 1 short). -/
theorem make_length_dictionary_thresholds_witness :
    ("aqua".toList, [(⟨20, 0, 0⟩ : Tally), ⟨19, 1, 0⟩].map (vowelVerdict 20 3)) ∈
        make_length_dictionary 20 3 [("aqua".toList, [⟨20, 0, 0⟩, ⟨19, 1, 0⟩])] ∧
      ([(⟨20, 0, 0⟩ : Tally), ⟨19, 1, 0⟩].map (vowelVerdict 20 3))[0]? = some VLen.long ∧
      ([(⟨20, 0, 0⟩ : Tally), ⟨19, 1, 0⟩].map (vowelVerdict 20 3))[1]? = some VLen.unknown := by
  have h1 := (make_length_dictionary_thresholds.1
    [("aqua".toList, [⟨20, 0, 0⟩, ⟨19, 1, 0⟩])] ("aqua".toList)
    [⟨20, 0, 0⟩, ⟨19, 1, 0⟩] 0 ⟨20, 0, 0⟩ (by decide) rfl (by decide) rfl)
  have h2 := make_length_dictionary_thresholds.2 [⟨20, 0, 0⟩, ⟨19, 1, 0⟩] 1 0 rfl
  exact ⟨h1.1, h1.2, h2⟩

/-! ## C10, counterexample -/

/-- C10 counterexample: the tokenizer admits the bare combining breve (it
is in `WORD_CHARS`), but when it does not follow a y no segmentation rule
consumes it: the word token of the normalized text "ab̆" reaches the
unrecognized-character failure branch of `Token.segmentize`. -/
theorem segmentize_fails_on_bare_breve_token :
    breve ∈ WORD_CHARS ∧
    (tokenize (normalize badLine)).map (fun t => (t.type_, segmentizeToken t)) =
      [(TokType.word, .error (ScanErr.cannotAnalyse breve))] :=
  ⟨by decide, by rfl⟩

/-! ## C3 -/

lemma filterMap_ite_length {α β : Type} (p : α → Prop) [DecidablePred p]
    (g : α → β) (l : List α) :
    (l.filterMap (fun a => if p a then some (g a) else none)).length =
      (l.filter (fun a => decide (p a))).length := by
  induction l with
  | nil => rfl
  | cons a l ih =>
    by_cases h : p a <;> simp [List.filterMap_cons, List.filter_cons, h, ih]

/-- C3: for every verse the pipeline builds, the weight scheme has exactly
one character per vowel segment not marked elided, taken over all tokens
in order: its length equals that count. -/
theorem scheme_length_eq_nonelided_vowel_count
    (original : List Char) (ld : Option (List (List Char × List VLen))) (us : Bool)
    (v : VerseResult) (h : verse original ld us = .ok v) :
    v.scheme.length = countNonElidedVowels v.tokens := by
  obtain ⟨toks0, -, -, hscheme, -, -, -⟩ := verse_ok_parts h
  rw [hscheme]
  exact filterMap_ite_length _ _ _

/-- Witness for the C3 theorem at a concrete verse. -/
theorem scheme_length_witness :
    verse goodLine none false = .ok (vOf goodLine) ∧
    (vOf goodLine).scheme.length = countNonElidedVowels (vOf goodLine).tokens :=
  ⟨rfl, scheme_length_eq_nonelided_vowel_count goodLine none false (vOf goodLine) rfl⟩

/-! ## Order lemmas for the lexicographic comparison -/

lemma seqLe_total : ∀ a b : List Char, seqLe a b = true ∨ seqLe b a = true := by
  intro a
  induction a with
  | nil => intro b; left; rfl
  | cons c l ih =>
    intro b
    cases b with
    | nil => right; rfl
    | cons d m =>
      by_cases h : c = d
      · subst h
        rcases ih m with h1 | h1
        · left; simp [seqLe, h1]
        · right; simp [seqLe, h1]
      · rcases lt_or_gt_of_ne h with hlt | hgt
        · left; simp [seqLe, h, hlt]
        · right; simp [seqLe, Ne.symm h, hgt]

lemma seqLe_trans : ∀ a b c : List Char,
    seqLe a b = true → seqLe b c = true → seqLe a c = true := by
  intro a
  induction a with
  | nil => intro b c _ _; rfl
  | cons x l ih =>
    intro b c hab hbc
    cases b with
    | nil => simp [seqLe] at hab
    | cons y m =>
      cases c with
      | nil => simp [seqLe] at hbc
      | cons z n =>
        by_cases hxy : x = y <;> by_cases hyz : y = z
        · subst hxy; subst hyz
          simp only [seqLe, if_pos rfl] at *
          exact ih m n hab hbc
        · subst hxy
          simp only [seqLe, if_pos rfl, if_neg hyz] at *
          simp [hyz, hbc]
        · subst hyz
          simp only [seqLe, if_neg hxy] at *
          simp [hxy, hab]
        · simp only [seqLe, if_neg hxy, if_neg hyz, decide_eq_true_eq] at hab hbc
          have hxz : x < z := lt_trans hab hbc
          simp [seqLe, ne_of_lt hxz, hxz]

lemma seqLe_antisymm : ∀ a b : List Char,
    seqLe a b = true → seqLe b a = true → a = b := by
  intro a
  induction a with
  | nil =>
    intro b _ hba
    cases b with
    | nil => rfl
    | cons y m => simp [seqLe] at hba
  | cons x l ih =>
    intro b hab hba
    cases b with
    | nil => simp [seqLe] at hab
    | cons y m =>
      by_cases hxy : x = y
      · subst hxy
        simp only [seqLe, if_pos rfl] at hab hba
        rw [ih m hab hba]
      · simp only [seqLe, if_neg hxy, if_neg (Ne.symm hxy), decide_eq_true_eq] at hab hba
        exact absurd (lt_trans hab hba) (lt_irrefl x)

instance : IsTotal (List Char) seqR := ⟨seqLe_total⟩

instance : IsTrans (List Char) seqR := ⟨seqLe_trans⟩

instance : IsAntisymm (List Char) seqR := ⟨seqLe_antisymm⟩

/-! ## Finite facts about the hexameter pattern table -/

lemma hexkeys_nodup : HEXkeys.Nodup := by decide

lemma hexkeys_pairwise : HEXkeys.Pairwise seqR := by decide

/-- When two distinct keys share both length and all but their last
character, the two variants obtained by ending in '-' and in 'u' are both
keys. -/
lemma hex_pair_variants : ∀ a ∈ HEXkeys, ∀ b ∈ HEXkeys,
    a.length = b.length → a.dropLast = b.dropLast → a ≠ b →
    a.dropLast ++ ['-'] ∈ HEXkeys ∧ a.dropLast ++ ['u'] ∈ HEXkeys := by decide

/-- Each table entry: the key is the full pattern with the foot boundaries
deleted, and both the key and the full pattern end in '-' or 'u'. -/
lemma hex_entry : ∀ p ∈ HEXAMETER_sequences,
    stripBars p.2 = p.1 ∧ (p.2.getLast? = some '-' ∨ p.2.getLast? = some 'u') ∧
    (p.1.getLast? = some '-' ∨ p.1.getLast? = some 'u') := by decide

/-- For any two table entries, the merge test on the keys agrees with the
merge test on the full patterns. -/
lemma hex_agree : ∀ p ∈ HEXAMETER_sequences, ∀ q ∈ HEXAMETER_sequences,
    ((p.1.length = q.1.length ∧ p.1.dropLast = q.1.dropLast) ↔
     (p.2.length = q.2.length ∧ p.2.dropLast = q.2.dropLast)) := by decide

lemma hex_snd_nodup : (HEXAMETER_sequences.map (·.2)).Nodup := by decide

/-! ## Characterizing `find_metrical` -/

/-- The sorted intersection step equals filtering the (already sorted,
duplicate-free) key list by candidate membership. -/
lemma find_pre_eq (cands : List (List Char)) :
    List.insertionSort seqR ((cands.filter (fun s => decide (s ∈ HEXkeys))).dedup) =
      HEXkeys.filter (fun s => decide (s ∈ cands)) := by
  refine List.eq_of_perm_of_sorted ?_ (List.sorted_insertionSort seqR _)
    (hexkeys_pairwise.filter _)
  refine (List.perm_insertionSort seqR _).trans
    ((List.perm_ext_iff_of_nodup (List.nodup_dedup _) (hexkeys_nodup.filter _)).mpr ?_)
  intro a
  simp only [List.mem_dedup, List.mem_filter, decide_eq_true_eq]
  exact ⟨fun ⟨h1, h2⟩ => ⟨h2, h1⟩, fun ⟨h1, h2⟩ => ⟨h2, h1⟩⟩

/-- The filtered key list is the first projection of the filtered table. -/
lemma find_keys_eq (cands : List (List Char)) :
    HEXkeys.filter (fun s => decide (s ∈ cands)) =
      (HEXAMETER_sequences.filter (fun p => decide (p.1 ∈ cands))).map (·.1) := by
  unfold HEXkeys
  rw [List.filter_map]
  rfl

/-- `find_metrical` in terms of the table filtered by candidate
membership. -/
lemma find_metrical_eq (cands : List (List Char)) :
    find_metrical cands =
      (merge_sequences ((HEXAMETER_sequences.filter (fun p => decide (p.1 ∈ cands))).map (·.1)),
       merge_sequences ((HEXAMETER_sequences.filter (fun p => decide (p.1 ∈ cands))).map (·.2))) := by
  simp only [find_metrical]
  rw [find_pre_eq]
  have hfull : (HEXAMETER_sequences.filter
        (fun p => decide (p.1 ∈ HEXkeys.filter (fun s => decide (s ∈ cands))))) =
      HEXAMETER_sequences.filter (fun p => decide (p.1 ∈ cands)) := by
    apply List.filter_congr
    intro p hp
    have hkey : p.1 ∈ HEXkeys := List.mem_map_of_mem (·.1) hp
    simp [List.mem_filter, hkey]
  rw [hfull, find_keys_eq]

/-! ## C2, amended -/

/-- Every element of a merged list of keys is a key or a merged pair. -/
lemma merge_mem_keys : ∀ l : List (List Char), l.Nodup → (∀ x ∈ l, x ∈ HEXkeys) →
    ∀ q ∈ merge_sequences l,
      q ∈ HEXkeys ∨
        (q.dropLast ++ ['-'] ∈ HEXkeys ∧ q.dropLast ++ ['u'] ∈ HEXkeys ∧
          q.getLast? = some 'o')
  | [], _, _, q, hq => by simp [merge_sequences] at hq
  | [x], _, hmem, q, hq => by
    simp only [merge_sequences, List.mem_singleton] at hq
    rw [hq]
    exact .inl (hmem x (by simp))
  | x :: y :: rest, hnd, hmem, q, hq => by
    rw [merge_sequences] at hq
    by_cases hc : x.length = y.length ∧ x.dropLast = y.dropLast
    · rw [if_pos hc] at hq
      rcases List.mem_cons.mp hq with hq | hq
      · right
        subst hq
        have hx : x ∈ HEXkeys := hmem x (by simp)
        have hy : y ∈ HEXkeys := hmem y (by simp)
        have hxy : x ≠ y := by
          intro he
          exact (List.nodup_cons.mp hnd).1 (he ▸ List.mem_cons_self y rest)
        have hvar := hex_pair_variants x hx y hy hc.1 hc.2 hxy
        refine ⟨by simpa using hvar.1, by simpa using hvar.2, List.getLast?_concat _⟩
      · exact merge_mem_keys rest ((List.nodup_cons.mp (List.nodup_cons.mp hnd).2).2)
          (fun z hz => hmem z (by simp [hz])) q hq
    · rw [if_neg hc] at hq
      rcases List.mem_cons.mp hq with hq | hq
      · subst hq
        exact .inl (hmem q (by simp))
      · exact merge_mem_keys (y :: rest) ((List.nodup_cons.mp hnd).2)
          (fun z hz => hmem z (List.mem_cons_of_mem x hz)) q hq

/-- C2 as amended: every reading in `Verse.metrical_sequences` is a key of
the hexameter table, unless it is the merge of two readings differing
only in the free final syllable — then it ends in 'o' and both
resolutions of that final 'o' (to '-' and to 'u') are keys. -/
theorem metrical_sequences_are_keys_or_merges
    (original : List Char) (ld : Option (List (List Char × List VLen))) (us : Bool)
    (v : VerseResult) (h : verse original ld us = .ok v)
    (q : List Char) (hq : q ∈ v.metrical_sequences) :
    q ∈ HEXkeys ∨
      (q.dropLast ++ ['-'] ∈ HEXkeys ∧ q.dropLast ++ ['u'] ∈ HEXkeys ∧
        q.getLast? = some 'o') := by
  obtain ⟨toks0, -, -, -, -, hms, -⟩ := verse_ok_parts h
  rw [hms, find_metrical_eq] at hq
  refine merge_mem_keys _ ?_ ?_ q hq
  · rw [← find_keys_eq]
    exact hexkeys_nodup.filter _
  · intro x hx
    rw [← find_keys_eq] at hx
    exact (List.mem_filter.mp hx).1

/-- Witness for the amended C2 theorem: the single (merged) reading of
`c2input`. -/
theorem metrical_sequences_are_keys_or_merges_witness :
    verse c2input none false = .ok (vOf c2input) ∧
    c2seq ∈ (vOf c2input).metrical_sequences ∧
    (c2seq ∈ HEXkeys ∨
      (c2seq.dropLast ++ ['-'] ∈ HEXkeys ∧ c2seq.dropLast ++ ['u'] ∈ HEXkeys ∧
        c2seq.getLast? = some 'o')) :=
  ⟨rfl, by decide,
    metrical_sequences_are_keys_or_merges c2input none false (vOf c2input) rfl c2seq
      (by decide)⟩

/-! ## Decomposition helpers for the merge lemmas -/

lemma eq_dropLast_concat {x : List Char} {c : Char} (h : x.getLast? = some c) :
    x = x.dropLast ++ [c] := by
  induction x using List.reverseRecOn with
  | nil => simp at h
  | append_singleton l a _ =>
    rw [List.getLast?_concat] at h
    obtain rfl := Option.some.inj h
    simp

lemma stripBars_concat_keep {l : List Char} {c : Char} (hc : c ≠ '|') :
    stripBars (l ++ [c]) = stripBars l ++ [c] := by
  simp [stripBars, List.filter_append, hc]

lemma stripBars_dropLast {f k : List Char} {c : Char} (hk : stripBars f = k)
    (h : f.getLast? = some c) (hc : c ≠ '|') :
    stripBars f.dropLast = k.dropLast := by
  have hf := eq_dropLast_concat h
  rw [hf, stripBars_concat_keep hc] at hk
  rw [← hk]
  simp

/-- When the last characters are drawn from a two-element alphabet, a
third string with the same prefix must repeat one of two distinct
strings. -/
lemma partner_cases (w x y z : List Char) (cx cy cz : Char)
    (hx : x = w ++ [cx]) (hy : y = w ++ [cy]) (hz : z = w ++ [cz])
    (hcx : cx = '-' ∨ cx = 'u') (hcy : cy = '-' ∨ cy = 'u')
    (hcz : cz = '-' ∨ cz = 'u') (hxy : x ≠ y) : z = x ∨ z = y := by
  rcases hcx with rfl | rfl <;> rcases hcy with rfl | rfl <;>
    rcases hcz with rfl | rfl <;> simp_all

/-- The head of a merged nonempty list is the original head or the
original head with its final character replaced by 'o'. -/
lemma merge_head_shape (x : List Char) (l : List (List Char)) :
    ∃ t, merge_sequences (x :: l) = x :: t ∨
      merge_sequences (x :: l) = (x.dropLast ++ ['o']) :: t := by
  cases l with
  | nil => exact ⟨[], .inl rfl⟩
  | cons y rest =>
    by_cases hc : x.length = y.length ∧ x.dropLast = y.dropLast
    · exact ⟨merge_sequences rest, .inr (by rw [merge_sequences, if_pos hc])⟩
    · exact ⟨merge_sequences (y :: rest), .inl (by rw [merge_sequences, if_neg hc])⟩

/-! ## C4 -/

/-- The merge-decision agreement between keys and full patterns, as a
pairwise fact over the table. -/
lemma hex_agree_pairwise :
    HEXAMETER_sequences.Pairwise (fun p q =>
      (p.1.length = q.1.length ∧ p.1.dropLast = q.1.dropLast) ↔
        (p.2.length = q.2.length ∧ p.2.dropLast = q.2.dropLast)) := by decide

/-- Merging the key projections and the full-pattern projections of a run
of table entries stays in lock-step: stripping the boundary bars from the
merged full patterns gives exactly the merged keys. -/
lemma merge_lockstep : ∀ ps : List (List Char × List Char),
    (∀ p ∈ ps, p ∈ HEXAMETER_sequences) →
    List.Chain' (fun p q =>
      (p.1.length = q.1.length ∧ p.1.dropLast = q.1.dropLast) ↔
        (p.2.length = q.2.length ∧ p.2.dropLast = q.2.dropLast)) ps →
    (merge_sequences (ps.map (·.2))).map stripBars = merge_sequences (ps.map (·.1))
  | [], _, _ => rfl
  | [p], hmem, _ => by
    have he := hex_entry p (hmem p (by simp))
    simp [merge_sequences, he.1]
  | p :: q :: rest, hmem, hchain => by
    have hep := hex_entry p (hmem p (by simp))
    have heq := hex_entry q (hmem q (by simp))
    have hiff := (List.chain'_cons.mp hchain).1
    by_cases hc : p.1.length = q.1.length ∧ p.1.dropLast = q.1.dropLast
    · have hc2 : p.2.length = q.2.length ∧ p.2.dropLast = q.2.dropLast := hiff.mp hc
      simp only [List.map_cons]
      rw [merge_sequences, if_pos hc2, merge_sequences, if_pos hc, List.map_cons]
      have hdl : stripBars p.2.dropLast = p.1.dropLast := by
        rcases hep.2.1 with h2 | h2
        · exact stripBars_dropLast hep.1 h2 (by decide)
        · exact stripBars_dropLast hep.1 h2 (by decide)
      rw [stripBars_concat_keep (by decide), hdl]
      have ih := merge_lockstep rest (fun r hr => hmem r (by simp [hr]))
        ((List.chain'_cons.mp hchain).2.tail)
      rw [ih]
    · have hc2 : ¬(p.2.length = q.2.length ∧ p.2.dropLast = q.2.dropLast) :=
        fun h2 => hc (hiff.mpr h2)
      simp only [List.map_cons]
      rw [merge_sequences, if_neg hc2, merge_sequences, if_neg hc, List.map_cons]
      have ih := merge_lockstep (q :: rest) (fun r hr => hmem r (List.mem_cons_of_mem p hr))
        (List.chain'_cons.mp hchain).2
      simp only [List.map_cons] at ih
      rw [hep.1, ih]

/-- C4: after `find_metrical_sequences`, the two lists stay in lock-step:
deleting every foot-boundary bar from each entry of
`full_metrical_sequences` yields exactly `metrical_sequences` (in
particular the lists have equal length). -/
theorem full_and_plain_sequences_lockstep
    (original : List Char) (ld : Option (List (List Char × List VLen))) (us : Bool)
    (v : VerseResult) (h : verse original ld us = .ok v) :
    v.full_metrical_sequences.map stripBars = v.metrical_sequences ∧
    v.full_metrical_sequences.length = v.metrical_sequences.length := by
  obtain ⟨toks0, -, -, -, -, hms, hfms⟩ := verse_ok_parts h
  rw [hms, hfms, find_metrical_eq]
  have hsub : ∀ p ∈ HEXAMETER_sequences.filter
      (fun p => decide (p.1 ∈ v.candidate_sequences)), p ∈ HEXAMETER_sequences :=
    fun p hp => (List.mem_filter.mp hp).1
  have hchain := (hex_agree_pairwise.filter
    (fun p => decide (p.1 ∈ v.candidate_sequences))).chain'
  have hls := merge_lockstep _ hsub hchain
  exact ⟨hls, by rw [← hls, List.length_map]⟩

/-- Witness for the C4 theorem at the opening line of the Aeneid. -/
theorem full_and_plain_sequences_lockstep_witness :
    verse armaInput none false = .ok (vOf armaInput) ∧
    (vOf armaInput).full_metrical_sequences.map stripBars =
      (vOf armaInput).metrical_sequences ∧
    (vOf armaInput).full_metrical_sequences.length =
      (vOf armaInput).metrical_sequences.length :=
  ⟨rfl, (full_and_plain_sequences_lockstep armaInput none false (vOf armaInput) rfl).1,
    (full_and_plain_sequences_lockstep armaInput none false (vOf armaInput) rfl).2⟩

/-! ## C8 -/

/-- Last characters of the keys. -/
lemma hexkeys_last : ∀ k ∈ HEXkeys,
    k.getLast? = some '-' ∨ k.getLast? = some 'u' := by decide

/-- `merge_sequences` is idempotent on duplicate-free lists whose entries
end in '-' or 'u'. -/
lemma merge_idempotent : ∀ l : List (List Char), l.Nodup →
    (∀ x ∈ l, x.getLast? = some '-' ∨ x.getLast? = some 'u') →
    merge_sequences (merge_sequences l) = merge_sequences l
  | [], _, _ => rfl
  | [x], _, _ => rfl
  | x :: y :: rest, hnd, hlast => by
    obtain ⟨cx, hcx, hcx'⟩ : ∃ c, x.getLast? = some c ∧ (c = '-' ∨ c = 'u') := by
      rcases hlast x (by simp) with h | h
      · exact ⟨'-', h, .inl rfl⟩
      · exact ⟨'u', h, .inr rfl⟩
    obtain ⟨cy, hcy, hcy'⟩ : ∃ c, y.getLast? = some c ∧ (c = '-' ∨ c = 'u') := by
      rcases hlast y (by simp) with h | h
      · exact ⟨'-', h, .inl rfl⟩
      · exact ⟨'u', h, .inr rfl⟩
    have hxd := eq_dropLast_concat hcx
    have hyd := eq_dropLast_concat hcy
    have hxy : x ≠ y := by
      intro he
      exact (List.nodup_cons.mp hnd).1 (he ▸ List.mem_cons_self y rest)
    by_cases hc : x.length = y.length ∧ x.dropLast = y.dropLast
    · have hstep : merge_sequences (x :: y :: rest) =
          (x.dropLast ++ ['o']) :: merge_sequences rest := by
        rw [merge_sequences, if_pos hc]
      rw [hstep]
      have ih := merge_idempotent rest ((List.nodup_cons.mp (List.nodup_cons.mp hnd).2).2)
        (fun z hz => hlast z (by simp [hz]))
      cases hrest : merge_sequences rest with
      | nil => rfl
      | cons hd t =>
        have hrest_ne : rest ≠ [] := by
          intro he
          rw [he] at hrest
          exact List.noConfusion hrest
        obtain ⟨r0, rest', rfl⟩ : ∃ r0 rest', rest = r0 :: rest' :=
          List.exists_cons_of_ne_nil hrest_ne
        obtain ⟨cr, hcr, hcr'⟩ : ∃ c, r0.getLast? = some c ∧ (c = '-' ∨ c = 'u') := by
          rcases hlast r0 (by simp) with h | h
          · exact ⟨'-', h, .inl rfl⟩
          · exact ⟨'u', h, .inr rfl⟩
        have hrd := eq_dropLast_concat hcr
        have hr0_mem : r0 ∈ r0 :: rest' := List.mem_cons_self r0 rest'
        have hr0x : r0 ≠ x := by
          intro he
          exact (List.nodup_cons.mp hnd).1 (he ▸ List.mem_cons_of_mem y hr0_mem)
        have hr0y : r0 ≠ y := by
          intro he
          exact (List.nodup_cons.mp (List.nodup_cons.mp hnd).2).1 (he ▸ hr0_mem)
        have hnocond : ¬((x.dropLast ++ ['o']).length = hd.length ∧
            (x.dropLast ++ ['o']).dropLast = hd.dropLast) := by
          obtain ⟨t', ht'⟩ := merge_head_shape r0 rest'
          intro hcond
          have hhd : hd = r0 ∨ hd = r0.dropLast ++ ['o'] := by
            rcases ht' with h' | h' <;> rw [h'] at hrest
            · exact .inl (List.cons.inj hrest).1.symm
            · exact .inr (List.cons.inj hrest).1.symm
          have hr0drop : r0.dropLast = x.dropLast := by
            rcases hhd with rfl | rfl
            · have := hcond.2
              rw [List.dropLast_concat] at this
              exact this.symm
            · have := hcond.2
              rw [List.dropLast_concat, List.dropLast_concat] at this
              exact this.symm
          have hy' : y = x.dropLast ++ [cy] := by
            rw [← hc.2] at hyd
            exact hyd
          have hz' : r0 = x.dropLast ++ [cr] := by
            rw [hr0drop] at hrd
            exact hrd
          rcases partner_cases x.dropLast x y r0 cx cy cr hxd hy' hz'
            hcx' hcy' hcr' hxy with h' | h'
          · exact hr0x h'
          · exact hr0y h'
        have hstep2 : merge_sequences ((x.dropLast ++ ['o']) :: hd :: t) =
            (x.dropLast ++ ['o']) :: merge_sequences (hd :: t) := by
          rw [merge_sequences, if_neg hnocond]
        rw [hstep2, ← hrest, ih]
    · have hstep : merge_sequences (x :: y :: rest) =
          x :: merge_sequences (y :: rest) := by
        rw [merge_sequences, if_neg hc]
      rw [hstep]
      have ih := merge_idempotent (y :: rest) (List.nodup_cons.mp hnd).2
        (fun z hz => hlast z (List.mem_cons_of_mem x hz))
      obtain ⟨t', ht'⟩ := merge_head_shape y rest
      rcases ht' with h' | h'
      · have hstep2 : merge_sequences (x :: y :: t') =
            x :: merge_sequences (y :: t') := by
          rw [merge_sequences, if_neg hc]
        rw [h', hstep2, ← h', ih]
      · have hylen : y.length = y.dropLast.length + 1 := by
          conv_lhs => rw [hyd]
          simp
        have hnocond : ¬(x.length = (y.dropLast ++ ['o']).length ∧
            x.dropLast = (y.dropLast ++ ['o']).dropLast) := by
          intro hcond
          apply hc
          constructor
          · rw [hcond.1, hylen]
            simp
          · rw [hcond.2, List.dropLast_concat]
        have hstep2 : merge_sequences (x :: (y.dropLast ++ ['o']) :: t') =
            x :: merge_sequences ((y.dropLast ++ ['o']) :: t') := by
          rw [merge_sequences, if_neg hnocond]
        rw [h', hstep2, ← h', ih]

/-- C8: the merge step is idempotent on the (already merged) sequence
lists of every verse: applying `merge_sequences` again to
`metrical_sequences` or to `full_metrical_sequences` returns the list
unchanged. -/
theorem merge_idempotent_on_verse
    (original : List Char) (ld : Option (List (List Char × List VLen))) (us : Bool)
    (v : VerseResult) (h : verse original ld us = .ok v) :
    merge_sequences v.metrical_sequences = v.metrical_sequences ∧
    merge_sequences v.full_metrical_sequences = v.full_metrical_sequences := by
  obtain ⟨toks0, -, -, -, -, hms, hfms⟩ := verse_ok_parts h
  rw [hms, hfms, find_metrical_eq]
  constructor
  · apply merge_idempotent
    · rw [← find_keys_eq]
      exact hexkeys_nodup.filter _
    · intro x hx
      rw [← find_keys_eq] at hx
      exact hexkeys_last x (List.mem_filter.mp hx).1
  · apply merge_idempotent
    · exact hex_snd_nodup.sublist
        (List.Sublist.map _ (List.filter_sublist HEXAMETER_sequences))
    · intro x hx
      obtain ⟨p, hp, rfl⟩ := List.mem_map.mp hx
      exact (hex_entry p (List.mem_filter.mp hp).1).2.1

/-- Witness for the C8 theorem at the opening line of the Aeneid. -/
theorem merge_idempotent_on_verse_witness :
    verse armaInput none false = .ok (vOf armaInput) ∧
    merge_sequences (vOf armaInput).metrical_sequences =
      (vOf armaInput).metrical_sequences ∧
    merge_sequences (vOf armaInput).full_metrical_sequences =
      (vOf armaInput).full_metrical_sequences :=
  ⟨rfl, (merge_idempotent_on_verse armaInput none false (vOf armaInput) rfl).1,
    (merge_idempotent_on_verse armaInput none false (vOf armaInput) rfl).2⟩

/-! ## Shape of tokenizer output -/

lemma tokenizeLoop_form : ∀ (chars word : List Char) (acc : List Token),
    (∀ c ∈ word, pyLower c ∈ WORD_CHARS) → (∀ t ∈ acc, TokenizerForm t) →
    ∀ t ∈ tokenizeLoop chars word acc, TokenizerForm t := by
  intro chars
  induction chars with
  | nil =>
    intro word acc _ hacc t ht
    exact hacc t ht
  | cons c rest ih =>
    intro word acc hw hacc t ht
    simp only [tokenizeLoop] at ht
    by_cases hcw : pyLower c ∉ WORD_CHARS
    · rw [if_pos hcw] at ht
      refine ih [] _ (by simp) ?_ t ht
      intro t' ht'
      rcases List.mem_append.mp ht' with h' | h'
      · by_cases hwe : word = []
        · rw [if_neg (by simp [hwe])] at h'
          exact hacc t' h'
        · rw [if_pos hwe] at h'
          rcases List.mem_append.mp h' with h'' | h''
          · exact hacc t' h''
          · rw [List.mem_singleton] at h''
            exact .inl ⟨word, h'', hwe, hw⟩
      · rw [List.mem_singleton] at h'
        exact .inr ⟨c, h', hcw⟩
    · rw [if_neg hcw] at ht
      rw [not_not] at hcw
      refine ih (word ++ [c]) acc ?_ hacc t ht
      intro d hd
      rcases List.mem_append.mp hd with h' | h'
      · exact hw d h'
      · rw [List.mem_singleton] at h'
        rw [h']
        exact hcw

lemma tokenize_form (n : List Char) : ∀ t ∈ tokenize n, TokenizerForm t := by
  intro t ht
  exact tokenizeLoop_form (n ++ [' ']) [] [] (by simp) (by simp) t
    ((List.dropLast_sublist _).subset ht)

/-! ## Per-token properties preserved by the length-marking passes -/

lemma segmentizeToken_lc {t t1 : Token} (h : segmentizeToken t = .ok t1) :
    t1.lowercase_form = t.lowercase_form ∧ t1.type_ = t.type_ := by
  unfold segmentizeToken at h
  cases htt : t.type_ with
  | other =>
    rw [htt] at h
    simp only [Except.ok.injEq] at h
    subst h
    exact ⟨rfl, rfl⟩
  | word =>
    rw [htt] at h
    cases hs : segLoop t.lowercase_form t.original_cases (t.lowercase_form.length + 2) 1 with
    | error e => rw [hs] at h; cases h
    | ok segs =>
      rw [hs] at h
      simp only [Except.ok.injEq] at h
      subst h
      exact ⟨rfl, rfl⟩

lemma brevize_props (t : Token) :
    (brevize t).lowercase_form = t.lowercase_form ∧ (brevize t).type_ = t.type_ ∧
    (brevize t).segments.map (fun s => (s.type_, s.elided)) =
      t.segments.map (fun s => (s.type_, s.elided)) := by
  refine ⟨rfl, rfl, ?_⟩
  unfold brevize
  simp only [List.map_map]
  apply List.map_congr_left
  intro s _
  by_cases h : s.subtype = some SubType.monophthong ∧ s.length = some VLen.unknown <;>
    simp [h]

lemma resolveSegment_TE (v : VLen) (s : Segment) :
    (resolveSegment v s).type_ = s.type_ ∧ (resolveSegment v s).elided = s.elided := by
  by_cases hy : s.lowercase_form = ['y'] <;>
    cases v <;> simp [resolveSegment, hy]

lemma addLengthsSegs_TE : ∀ (entry : List VLen) (mi : Nat) (segs out : List Segment),
    addLengthsSegs entry mi segs = .ok out →
    out.map (fun s => (s.type_, s.elided)) = segs.map (fun s => (s.type_, s.elided)) := by
  intro entry mi segs
  induction segs generalizing mi with
  | nil =>
    intro out h
    simp only [addLengthsSegs, Except.ok.injEq] at h
    rw [← h]
  | cons s rest ih =>
    intro out h
    rw [addLengthsSegs] at h
    have finish : ∀ (s' : Segment) (mi' : Nat),
        (s'.type_, s'.elided) = (s.type_, s.elided) →
        (addLengthsSegs entry mi' rest).map (s' :: ·) = .ok out →
        out.map (fun x => (x.type_, x.elided)) =
          (s :: rest).map (fun x => (x.type_, x.elided)) := by
      intro s' mi' hs' h'
      cases hrec : addLengthsSegs entry mi' rest with
      | error e => rw [hrec] at h'; simp [Except.map] at h'
      | ok res =>
        rw [hrec] at h'
        simp only [Except.map, Except.ok.injEq] at h'
        rw [← h']
        simp only [List.map_cons]
        rw [ih mi' res hrec, hs']
    by_cases h1 : s.subtype = some SubType.monophthong
    · rw [if_pos h1] at h
      by_cases h2 : s.length = some VLen.unknown
      · rw [if_pos h2] at h
        cases hget : entry.get? mi with
        | none => rw [hget] at h; cases h
        | some v =>
          simp only [hget] at h
          by_cases h3 : v ≠ VLen.unknown
          · rw [if_pos h3] at h
            exact finish (resolveSegment v s) (mi + 1)
              (by rw [(resolveSegment_TE v s).1, (resolveSegment_TE v s).2]) h
          · rw [if_neg h3] at h
            exact finish s (mi + 1) rfl h
      · rw [if_neg h2] at h
        exact finish s (mi + 1) rfl h
    · rw [if_neg h1] at h
      exact finish s mi rfl h

lemma add_lengths_props {d : List (List Char × List VLen)} {t t2 : Token}
    (h : add_lengths d t = .ok t2) :
    t2.lowercase_form = t.lowercase_form ∧ t2.type_ = t.type_ ∧
    t2.segments.map (fun s => (s.type_, s.elided)) =
      t.segments.map (fun s => (s.type_, s.elided)) := by
  simp only [add_lengths] at h
  cases hl : d.lookup (strip_diacritics t.lowercase_form) with
  | none =>
    simp only [hl, Except.ok.injEq] at h
    rw [← h]
    exact ⟨rfl, rfl, rfl⟩
  | some entry =>
    simp only [hl] at h
    cases hs : addLengthsSegs entry 0 t.segments with
    | error e => rw [hs] at h; simp [Except.map] at h
    | ok out =>
      rw [hs] at h
      simp only [Except.map, Except.ok.injEq] at h
      rw [← h]
      exact ⟨rfl, rfl, addLengthsSegs_TE _ _ _ _ hs⟩

lemma lengthMark_props {ld : Option (List (List Char × List VLen))} {us : Bool}
    {t1 t2 : Token} (h : lengthMark ld us t1 = Except.ok t2) :
    t2.lowercase_form = t1.lowercase_form ∧ t2.type_ = t1.type_ ∧
    t2.segments.map (fun s => (s.type_, s.elided)) =
      t1.segments.map (fun s => (s.type_, s.elided)) := by
  unfold lengthMark at h
  by_cases hus : us
  · rw [if_pos hus] at h
    simp only [pure, Except.pure, Except.ok.injEq] at h
    rw [← h]
    exact brevize_props t1
  · rw [if_neg hus] at h
    cases ld with
    | none =>
      have h' : (pure t1 : Except ScanErr Token) = Except.ok t2 := h
      simp only [pure, Except.pure, Except.ok.injEq] at h'
      rw [← h']
      exact ⟨rfl, rfl, rfl⟩
    | some d =>
      have h' : (if d ≠ [] then add_lengths d t1 else pure t1) = Except.ok t2 := h
      by_cases hd : d ≠ []
      · rw [if_pos hd] at h'
        exact add_lengths_props h'
      · rw [if_neg hd] at h'
        simp only [pure, Except.pure, Except.ok.injEq] at h'
        rw [← h']
        exact ⟨rfl, rfl, rfl⟩

lemma prepareTokens_cons {ld : Option (List (List Char × List VLen))} {us : Bool}
    {t : Token} {rest : List Token} {out : List Token}
    (h : prepareTokens ld us (t :: rest) = .ok out) :
    ∃ t1 t2 rest2, segmentizeToken t = .ok t1 ∧
      lengthMark ld us t1 = Except.ok t2 ∧
      prepareTokens ld us rest = .ok rest2 ∧ out = t2 :: rest2 := by
  simp only [prepareTokens, bind, Except.bind] at h
  cases h1 : segmentizeToken t with
  | error e => simp only [h1] at h; cases h
  | ok t1 =>
    simp only [h1] at h
    cases h2 : lengthMark ld us t1 with
    | error e => simp only [h2] at h; cases h
    | ok t2 =>
      simp only [h2] at h
      cases h3 : prepareTokens ld us rest with
      | error e => simp only [h3] at h; cases h
      | ok rest2 =>
        simp only [h3] at h
        simp only [pure, Except.pure, Except.ok.injEq] at h
        exact ⟨t1, t2, rest2, rfl, h2, rfl, h.symm⟩

/-! ## The single-vowel words o and ō segmentize to one vowel segment -/

lemma segmentizeToken_single_o {c : Char} (h : pyLower c = 'o') :
    segmentizeToken (mkToken [c] TokType.word) = .ok { mkToken [c] TokType.word with
      segments := [{ lowercase_form := ['o'], original_case := [caseOf c], type_ := SegType.vowel, subtype := some SubType.monophthong, length := some VLen.unknown }] } := by
  unfold segmentizeToken mkToken
  simp only [List.map_cons, List.map_nil, h, List.length_cons, List.length_nil]
  rfl

lemma segmentizeToken_single_omacron {c : Char} (h : pyLower c = 'ō') :
    segmentizeToken (mkToken [c] TokType.word) = .ok { mkToken [c] TokType.word with
      segments := [{ lowercase_form := ['ō'], original_case := [caseOf c], type_ := SegType.vowel, subtype := some SubType.monophthong, length := some VLen.long }] } := by
  unfold segmentizeToken mkToken
  simp only [List.map_cons, List.map_nil, h, List.length_cons, List.length_nil]
  rfl

lemma map_eq_singleton {α β : Type} {f : α → β} {l : List α} {b : β}
    (h : l.map f = [b]) : ∃ a, l = [a] ∧ f a = b := by
  cases l with
  | nil => cases h
  | cons a rest =>
    cases rest with
    | nil =>
      simp only [List.map_cons, List.map_nil, List.cons.injEq, and_true] at h
      exact ⟨a, rfl, h⟩
    | cons a' rest' => simp at h

/-! ## `oProtected` is established and preserved -/

lemma prepareTokens_oProtected :
    ∀ (ld : Option (List (List Char × List VLen))) (us : Bool)
      (toks toks0 : List Token),
    (∀ t ∈ toks, TokenizerForm t) →
    prepareTokens ld us toks = .ok toks0 →
    oProtected toks0 := by
  intro ld us toks
  induction toks with
  | nil =>
    intro toks0 _ h
    simp only [prepareTokens, Except.ok.injEq] at h
    intro t ht
    rw [← h] at ht
    cases ht
  | cons t rest ih =>
    intro toks0 hTF h
    obtain ⟨t1, t2, rest2, h1, h2, h3, rfl⟩ := prepareTokens_cons h
    intro t' ht' hlc
    rcases List.mem_cons.mp ht' with rfl | hmem
    · -- the head token
      have hp2 := lengthMark_props h2
      have hp1 := segmentizeToken_lc h1
      rcases hTF t (by simp) with ⟨w, rfl, hne, hw⟩ | ⟨c, rfl, hc⟩
      · -- word token: its lower-case form must be exactly [o] or [ō],
        -- so the original is a single character and the segments are one vowel
        have hwlc : (mkToken w TokType.word).lowercase_form = w.map pyLower := rfl
        have hlc1 : w.map pyLower = ['o'] ∨ w.map pyLower = ['ō'] := by
          rw [← hwlc, ← hp1.1, ← hp2.1]
          exact hlc
        have hsegTE : t'.segments.map (fun s => (s.type_, s.elided)) =
            [(SegType.vowel, false)] := by
          rcases hlc1 with hlc1 | hlc1
          · obtain ⟨c, rfl, hco⟩ := map_eq_singleton hlc1
            rw [segmentizeToken_single_o hco] at h1
            simp only [Except.ok.injEq] at h1
            rw [hp2.2.2, ← h1]
            rfl
          · obtain ⟨c, rfl, hco⟩ := map_eq_singleton hlc1
            rw [segmentizeToken_single_omacron hco] at h1
            simp only [Except.ok.injEq] at h1
            rw [hp2.2.2, ← h1]
            rfl
        intro s hs
        obtain ⟨s', hsegs, hps⟩ := map_eq_singleton hsegTE
        rw [hsegs, List.mem_singleton] at hs
        rw [hs]
        simp only [Prod.mk.injEq] at hps
        exact ⟨hps.2, hps.1⟩
      · -- non-word token: its character is not a word character, but o and ō are
        exfalso
        have : t'.lowercase_form = [pyLower c] := by
          rw [hp2.1, hp1.1]
          rfl
        rcases hlc with hlc | hlc <;> rw [this] at hlc <;>
          simp only [List.cons.injEq, and_true] at hlc <;> rw [hlc] at hc <;>
          exact hc (by decide)
    · exact ih rest2 (fun t'' ht'' => hTF t'' (List.mem_cons_of_mem t ht'')) h3 t' hmem hlc

lemma elidePair_oProtected (tokens : List Token) (p : Nat × Nat)
    (h : oProtected tokens) : oProtected (elidePair tokens p) := by
  cases hw : tokens.get? p.1 with
  | none => simpa only [elidePair, hw] using h
  | some word =>
    cases hn : tokens.get? p.2 with
    | none => simpa only [elidePair, hw, hn] using h
    | some next_word =>
      by_cases ho : word.lowercase_form = ['o'] ∨ word.lowercase_form = ['ō']
      · simp only [elidePair, hw, hn]
        rw [if_pos ho]
        exact h
      · cases hls : word.segments.getLast? with
        | none => simpa only [elidePair, hw, hn, hls, if_neg ho] using h
        | some lastSeg =>
          cases hhd : next_word.segments.head? with
          | none => simpa only [elidePair, hw, hn, hls, hhd, if_neg ho] using h
          | some firstSeg =>
            simp only [elidePair, hw, hn, hls, hhd]
            rw [if_neg ho]
            by_cases he : lastSeg.type_ = SegType.vowel ∧
                (firstSeg.type_ = SegType.vowel ∨ firstSeg.type_ = SegType.h)
            · rw [if_pos he]
              by_cases hesse : next_word.lowercase_form ∈ ESSE_ELISION_FORMS
              · rw [if_pos hesse]
                intro t ht hlc
                rcases List.mem_or_eq_of_mem_set ht with ht' | ht'
                · exact h t ht' hlc
                · exfalso
                  have : t.lowercase_form = next_word.lowercase_form := by rw [ht']; rfl
                  rw [this] at hlc
                  rcases hlc with hlc | hlc <;> rw [hlc] at hesse <;>
                    exact absurd hesse (by decide)
              · rw [if_neg hesse]
                by_cases hh : firstSeg.type_ = SegType.h
                · rw [if_pos hh]
                  intro t ht hlc
                  rcases List.mem_or_eq_of_mem_set ht with ht' | ht'
                  · rcases List.mem_or_eq_of_mem_set ht' with ht'' | ht''
                    · exact h t ht'' hlc
                    · exfalso
                      have : t.lowercase_form = word.lowercase_form := by rw [ht'']; rfl
                      exact ho (this ▸ hlc)
                  · exfalso
                    have hlcnw : t.lowercase_form = next_word.lowercase_form := by
                      rw [ht']; rfl
                    have hnwmem : next_word ∈ tokens := List.get?_mem hn
                    have hall := h next_word hnwmem (hlcnw ▸ hlc)
                    have hfs := hall firstSeg (List.mem_of_mem_head? (hhd ▸ rfl))
                    rw [hfs.2] at hh
                    cases hh
                · rw [if_neg hh]
                  intro t ht hlc
                  rcases List.mem_or_eq_of_mem_set ht with ht' | ht'
                  · exact h t ht' hlc
                  · exfalso
                    have : t.lowercase_form = word.lowercase_form := by rw [ht']; rfl
                    exact ho (this ▸ hlc)
            · rw [if_neg he]
              exact h

lemma elide_oProtected (tokens : List Token) (h : oProtected tokens) :
    oProtected (elide tokens) := by
  unfold elide
  simp only []
  generalize (wordIds tokens).zip (wordIds tokens).tail = pairs
  induction pairs generalizing tokens with
  | nil => exact h
  | cons p ps ih =>
    rw [List.foldl_cons]
    exact ih (elidePair tokens p) (elidePair_oProtected tokens p h)

/-! ## The coda pass does not change anything but codas -/

lemma codaLoop_key : ∀ (rest : List Segment) (pending : Option Segment) (count : Nat)
    (chunk : List Char) (buffer : List Segment),
    (codaLoop pending count chunk buffer rest).map segKey =
      ((pending.elim [] (fun v => [v])) ++ buffer ++ rest).map segKey := by
  intro rest
  induction rest with
  | nil =>
    intro pending count chunk buffer
    cases pending <;> simp [codaLoop, segKey]
  | cons s rest ih =>
    intro pending count chunk buffer
    simp only [codaLoop]
    by_cases h1 : s.type_ = SegType.consonant
    · rw [if_pos h1, ih]
      simp
    · rw [if_neg h1]
      by_cases h2 : s.lowercase_form = [' ']
      · rw [if_pos h2, ih]
        simp
      · rw [if_neg h2]
        by_cases h3 : s.type_ = SegType.vowel ∧ s.elided = false
        · rw [if_pos h3]
          rw [List.map_append, ih]
          cases pending <;> simp [segKey]
        · rw [if_neg h3, ih]
          simp

lemma reassemble_pointwise : ∀ (toks : List Token) (segs : List Segment),
    segs.map segKey = (toks.flatMap (·.segments)).map segKey →
    ∀ t' ∈ reassemble toks segs, ∃ t ∈ toks,
      t'.lowercase_form = t.lowercase_form ∧ t'.type_ = t.type_ ∧
      t'.segments.map segKey = t.segments.map segKey := by
  intro toks
  induction toks with
  | nil =>
    intro segs _ t' ht'
    simp [reassemble] at ht'
  | cons t ts ih =>
    intro segs h t' ht'
    rw [reassemble] at ht'
    rcases List.mem_cons.mp ht' with rfl | hmem
    · refine ⟨t, by simp, rfl, rfl, ?_⟩
      have htake := congrArg (fun l => l.take t.segments.length) h
      simp only [← List.map_take, List.flatMap_cons] at htake
      rw [List.take_append_of_le_length le_rfl, List.take_length] at htake
      simpa using htake
    · have hdrop := congrArg (fun l => l.drop t.segments.length) h
      simp only [← List.map_drop, List.flatMap_cons] at hdrop
      rw [List.drop_append_of_le_length le_rfl, List.drop_length] at hdrop
      simp only [List.nil_append] at hdrop
      obtain ⟨t0, ht0, hp⟩ := ih (segs.drop t.segments.length) hdrop t' hmem
      exact ⟨t0, List.mem_cons_of_mem t ht0, hp⟩

lemma map_eq_map_mem {α β : Type} {f : α → β} : ∀ {l1 l2 : List α},
    l1.map f = l2.map f → ∀ a ∈ l1, ∃ b ∈ l2, f a = f b := by
  intro l1
  induction l1 with
  | nil => intro l2 _ a ha; cases ha
  | cons x xs ih =>
    intro l2 h a ha
    cases l2 with
    | nil => cases h
    | cons y ys =>
      simp only [List.map_cons, List.cons.injEq] at h
      rcases List.mem_cons.mp ha with rfl | ha'
      · exact ⟨y, by simp, h.1⟩
      · obtain ⟨b, hb, hab⟩ := ih h.2 a ha'
        exact ⟨b, List.mem_cons_of_mem y hb, hab⟩

/-! ## C6, amended -/

/-- C6 as amended: the elision pass never marks any segment of a word
token spelled "o" or "ō" as elided, whatever follows it (the short-marked
spelling "ŏ" is not protected by the guard in `Verse.elide`). -/
theorem elide_never_marks_o_or_omacron
    (original : List Char) (ld : Option (List (List Char × List VLen))) (us : Bool)
    (v : VerseResult) (h : verse original ld us = .ok v)
    (t : Token) (ht : t ∈ v.tokens) (hword : t.type_ = TokType.word)
    (hlc : t.lowercase_form = ['o'] ∨ t.lowercase_form = ['ō']) :
    ∀ s ∈ t.segments, s.elided = false := by
  obtain ⟨toks0, hp, htok, -, -, -, -⟩ := verse_ok_parts h
  have h0 : oProtected toks0 :=
    prepareTokens_oProtected ld us (tokenize (normalize original)) toks0
      (tokenize_form _) hp
  have h1 : oProtected (elide toks0) := elide_oProtected _ h0
  rw [htok] at ht
  unfold analyse_codas at ht
  obtain ⟨t0, ht0, hplc, -, hsegmap⟩ :=
    reassemble_pointwise (elide toks0) _ (codaLoop_key _ none 0 [] []) t ht
  have hprot := h1 t0 ht0 (by rw [← hplc]; exact hlc)
  intro s hs
  obtain ⟨s0, hs0, hkey⟩ := map_eq_map_mem hsegmap s hs
  have : s.elided = s0.elided := by
    simp only [segKey, Prod.mk.injEq] at hkey
    exact hkey.2.2.2.2.2
  rw [this]
  exact (hprot s0 hs0).1

/-- Witness for the amended C6 theorem: in "ō amīce" the interjection ō
stays unelided. -/
theorem elide_never_marks_o_witness :
    verse c6winput none false = .ok (vOf c6winput) ∧
    ((vOf c6winput).tokens.headD (mkToken [] TokType.other)) ∈ (vOf c6winput).tokens ∧
    ∀ s ∈ ((vOf c6winput).tokens.headD (mkToken [] TokType.other)).segments,
      s.elided = false :=
  ⟨rfl, by decide,
    elide_never_marks_o_or_omacron c6winput none false (vOf c6winput) rfl
      ((vOf c6winput).tokens.headD (mkToken [] TokType.other))
      (by decide) (by decide) (by decide)⟩

/-! ## Index bookkeeping on the sentinel-padded form -/

lemma getD_padded_ne_space {w : List Char} {i : Nat}
    (h : ((' ' :: w) ++ [' ']).getD i ' ' ≠ ' ') :
    1 ≤ i ∧ i - 1 < w.length ∧ w[i - 1]? = some (((' ' :: w) ++ [' ']).getD i ' ') := by
  cases i with
  | zero => simp at h
  | succ j =>
    by_cases hlt : j < w.length
    · refine ⟨Nat.le_add_left 1 j, by simpa using hlt, ?_⟩
      simp [List.getD_eq_getElem?_getD, List.cons_append, List.getElem?_cons_succ,
        List.getElem?_append_left hlt, List.getElem?_eq_getElem hlt]
    · exfalso
      apply h
      rcases Nat.lt_or_ge j (w.length + 1) with hj2 | hj2
      · have hj : j = w.length := by omega
        subst hj
        simp [List.getD_eq_getElem?_getD, List.cons_append, List.getElem?_cons_succ,
          List.getElem?_concat_length]
      · have hnone : (w ++ [' '])[j]? = none := by
          apply List.getElem?_eq_none
          simp only [List.length_append, List.length_cons, List.length_nil]
          omega
        simp [List.getD_eq_getElem?_getD, List.cons_append, List.getElem?_cons_succ, hnone]

lemma padded_getD_of_getElem {w : List Char} {j : Nat} {c : Char}
    (h : w[j]? = some c) : ((' ' :: w) ++ [' ']).getD (j + 1) ' ' = c := by
  have hj : j < w.length := by
    rcases List.getElem?_eq_some.mp h with ⟨hj, -⟩
    exact hj
  simp [List.getD_eq_getElem?_getD, List.cons_append, List.getElem?_cons_succ,
    List.getElem?_append_left hj, h]

lemma padded_breve {w : List Char} {i : Nat}
    (h : ((' ' :: w) ++ [' ']).getD i ' ' = breve) :
    1 ≤ i ∧ w[i - 1]? = some breve := by
  have hne : ((' ' :: w) ++ [' ']).getD i ' ' ≠ ' ' := by rw [h]; decide
  obtain ⟨h1, -, hg⟩ := getD_padded_ne_space hne
  rw [h] at hg
  exact ⟨h1, hg⟩

/-- If the character one past the current one is a combining breve, the
current character is a y. -/
lemma advance1_y {w : List Char} (hbr : BrevesAfterY w) {i : Nat} (h1 : 1 ≤ i)
    (hb : ((' ' :: w) ++ [' ']).getD (i + 1) ' ' = breve) :
    ((' ' :: w) ++ [' ']).getD i ' ' = 'y' := by
  obtain ⟨-, hg⟩ := padded_breve hb
  simp only [Nat.add_sub_cancel] at hg
  obtain ⟨k, hk, hky⟩ := hbr i hg
  have hk1 : w[i - 1]? = some 'y' := by
    rw [hk]
    simpa using hky
  have h2 := padded_getD_of_getElem hk1
  rwa [Nat.sub_add_cancel h1] at h2

/-- If the character two past the current one is a combining breve, the
next character is a y. -/
lemma advance2_y {w : List Char} (hbr : BrevesAfterY w) {i : Nat}
    (hb : ((' ' :: w) ++ [' ']).getD (i + 2) ' ' = breve) :
    ((' ' :: w) ++ [' ']).getD (i + 1) ' ' = 'y' := by
  have hb' : ((' ' :: w) ++ [' ']).getD ((i + 1) + 1) ' ' = breve := hb
  obtain ⟨-, hg⟩ := padded_breve hb'
  simp only [Nat.add_sub_cancel] at hg
  obtain ⟨k, hk, hky⟩ := hbr (i + 1) hg
  have hki : k = i := by omega
  subst hki
  exact padded_getD_of_getElem hky

/-! ## The segmentation rule table succeeds away from bare breves -/

/-- One step of the rule table succeeds when the current character is a
word character other than the bare combining breve, and it never lands on
a breve (every breve sits right after a y, and the y rule jumps over
both characters). -/
lemma segStep_spec (w cases_ : List Char) (i : Nat)
    (hw : ∀ c ∈ w, c ∈ WORD_CHARS) (hbr : BrevesAfterY w) (h1 : 1 ≤ i)
    (hstop : ((' ' :: w) ++ [' ']).getD i ' ' ≠ ' ')
    (hnb : ((' ' :: w) ++ [' ']).getD i ' ' ≠ breve) :
    ∃ new two, segStep w cases_ i = .ok (new, two) ∧
      ((' ' :: w) ++ [' ']).getD (i + if two then 2 else 1) ' ' ≠ breve := by
  obtain ⟨-, hlt, hget⟩ := getD_padded_ne_space hstop
  have hcharW : ((' ' :: w) ++ [' ']).getD i ' ' ∈ WORD_CHARS :=
    hw _ (List.getElem?_mem hget)
  simp only [segStep]
  by_cases hB1 : [((' ' :: w) ++ [' ']).getD i ' ', ((' ' :: w) ++ [' ']).getD (i + 1) ' '] ∈ DIPHTHONGS ∨
      ([((' ' :: w) ++ [' ']).getD i ' ', ((' ' :: w) ++ [' ']).getD (i + 1) ' '] = ['e', 'u'] ∧ w ∈ EU_WORDS) ∨
      ([((' ' :: w) ++ [' ']).getD i ' ', ((' ' :: w) ++ [' ']).getD (i + 1) ' '] = ['u', 'i'] ∧ w ∈ UI_WORDS)
  · rw [if_pos hB1]
    refine ⟨_, _, rfl, ?_⟩
    show ((' ' :: w) ++ [' ']).getD (i + 2) ' ' ≠ breve
    intro hb
    have hy := advance2_y hbr hb
    rw [hy] at hB1
    simp [DIPHTHONGS] at hB1
  · rw [if_neg hB1]
    by_cases hB2 : ((' ' :: w) ++ [' ']).getD i ' ' ∈ VOWELS ∧
        ((' ' :: w) ++ [' ']).drop (i + 1) = ['m', ' ']
    · rw [if_pos hB2]
      refine ⟨_, _, rfl, ?_⟩
      show ((' ' :: w) ++ [' ']).getD (i + 2) ' ' ≠ breve
      intro hb
      have h2 := congrArg (fun l => l[1]?) hB2.2
      simp only [List.getElem?_drop] at h2
      have hsp : ((' ' :: w) ++ [' ']).getD (i + 2) ' ' = ' ' := by
        rw [List.getD_eq_getElem?_getD, show i + 2 = i + 1 + 1 from rfl, h2]
        rfl
      rw [hsp] at hb
      exact absurd hb (by decide)
    · rw [if_neg hB2]
      by_cases hB3 : ((' ' :: w) ++ [' ']).getD i ' ' = 'i' ∧
          ((' ' :: w) ++ [' ']).getD (i + 1) ' ' ∈ VOWELS ∧
          (i = 1 ∨ (((' ' :: w) ++ [' ']).take i).drop 1 ∈ PREFIXES)
      · rw [if_pos hB3]
        refine ⟨_, _, rfl, ?_⟩
        show ((' ' :: w) ++ [' ']).getD (i + 1) ' ' ≠ breve
        intro hb
        have hy := advance1_y hbr h1 hb
        rw [hB3.1] at hy
        exact absurd hy (by decide)
      · rw [if_neg hB3]
        by_cases hB4 : (((' ' :: w) ++ [' ']).getD i ' ' = 'i' ∨
              ((' ' :: w) ++ [' ']).getD i ' ' = 'j') ∧
            ((' ' :: w) ++ [' ']).getD (i - 1) ' ' ∈ VOWELS ∧
            ((' ' :: w) ++ [' ']).getD (i + 1) ' ' ∈ VOWELS ∧
            (((' ' :: w) ++ [' ']).take i).drop (i - 2) ≠ ['q', 'u'] ∧
            (((' ' :: w) ++ [' ']).take i).drop (i - 3) ≠ ['n', 'g', 'u']
        · rw [if_pos hB4]
          refine ⟨_, _, rfl, ?_⟩
          show ((' ' :: w) ++ [' ']).getD (i + 1) ' ' ≠ breve
          intro hb
          have hy := advance1_y hbr h1 hb
          rcases hB4.1 with hc | hc <;> rw [hc] at hy <;> exact absurd hy (by decide)
        · rw [if_neg hB4]
          by_cases hB5 : ((' ' :: w) ++ [' ']).getD i ' ' = 'q' ∧
              ((' ' :: w) ++ [' ']).getD (i + 1) ' ' = 'u'
          · rw [if_pos hB5]
            refine ⟨_, _, rfl, ?_⟩
            show ((' ' :: w) ++ [' ']).getD (i + 2) ' ' ≠ breve
            intro hb
            have hy := advance2_y hbr hb
            rw [hB5.2] at hy
            exact absurd hy (by decide)
          · rw [if_neg hB5]
            by_cases hB6 : ((' ' :: w) ++ [' ']).getD (i - 1) ' ' = 'n' ∧
                ((' ' :: w) ++ [' ']).getD i ' ' = 'g' ∧
                ((' ' :: w) ++ [' ']).getD (i + 1) ' ' = 'u' ∧
                ((' ' :: w) ++ [' ']).getD (i + 2) ' ' ∈ VOWELS
            · rw [if_pos hB6]
              refine ⟨_, _, rfl, ?_⟩
              show ((' ' :: w) ++ [' ']).getD (i + 2) ' ' ≠ breve
              intro hb
              have hy := advance2_y hbr hb
              rw [hB6.2.2.1] at hy
              exact absurd hy (by decide)
            · rw [if_neg hB6]
              by_cases hB7 : ((' ' :: w) ++ [' ']).getD i ' ' = 'x' ∨
                  ((' ' :: w) ++ [' ']).getD i ' ' = 'z'
              · rw [if_pos hB7]
                refine ⟨_, _, rfl, ?_⟩
                show ((' ' :: w) ++ [' ']).getD (i + 1) ' ' ≠ breve
                intro hb
                have hy := advance1_y hbr h1 hb
                rcases hB7 with hc | hc <;> rw [hc] at hy <;> exact absurd hy (by decide)
              · rw [if_neg hB7]
                by_cases hB8 : ((' ' :: w) ++ [' ']).getD i ' ' = 'h'
                · rw [if_pos hB8]
                  refine ⟨_, _, rfl, ?_⟩
                  show ((' ' :: w) ++ [' ']).getD (i + 1) ' ' ≠ breve
                  intro hb
                  have hy := advance1_y hbr h1 hb
                  rw [hB8] at hy
                  exact absurd hy (by decide)
                · rw [if_neg hB8]
                  by_cases hB9 : ((' ' :: w) ++ [' ']).getD i ' ' = 'y' ∧
                      ((' ' :: w) ++ [' ']).getD (i + 1) ' ' = breve
                  · rw [if_pos hB9]
                    refine ⟨_, _, rfl, ?_⟩
                    show ((' ' :: w) ++ [' ']).getD (i + 2) ' ' ≠ breve
                    intro hb
                    have hy := advance2_y hbr hb
                    rw [hB9.2] at hy
                    exact absurd hy (by decide)
                  · rw [if_neg hB9]
                    by_cases hB10 : ((' ' :: w) ++ [' ']).getD i ' ' ∈ VOWELS
                    · rw [if_pos hB10]
                      refine ⟨_, _, rfl, ?_⟩
                      show ((' ' :: w) ++ [' ']).getD (i + 1) ' ' ≠ breve
                      intro hb
                      have hy := advance1_y hbr h1 hb
                      exact hB9 ⟨hy, hb⟩
                    · rw [if_neg hB10]
                      by_cases hB11 : ((' ' :: w) ++ [' ']).getD i ' ' ∈ CONSONANTS
                      · rw [if_pos hB11]
                        refine ⟨_, _, rfl, ?_⟩
                        show ((' ' :: w) ++ [' ']).getD (i + 1) ' ' ≠ breve
                        intro hb
                        have hy := advance1_y hbr h1 hb
                        rw [hy] at hB11
                        exact absurd hB11 (by decide)
                      · rw [if_neg hB11]
                        exfalso
                        simp only [WORD_CHARS, List.mem_append, List.mem_cons,
                          List.mem_singleton, List.not_mem_nil, or_false] at hcharW
                        rcases hcharW with ((hv | hv) | hv) | hv
                        · exact hB10 hv
                        · exact hB11 hv
                        · exact hB8 hv
                        · rcases hv with hv | hv
                          · exact hB10 (by rw [hv]; decide)
                          · exact hnb hv

/-- The segmentation loop succeeds on a word of word characters whose
breves all follow y, starting at a position that does not hold a breve. -/
lemma segLoop_ok : ∀ (fuel : Nat) (w cases_ : List Char) (i : Nat),
    (∀ c ∈ w, c ∈ WORD_CHARS) → BrevesAfterY w → 1 ≤ i →
    ((' ' :: w) ++ [' ']).getD i ' ' ≠ breve →
    ∃ segs, segLoop w cases_ fuel i = .ok segs := by
  intro fuel
  induction fuel with
  | zero =>
    intro w cases_ i _ _ _ _
    rw [segLoop]
    by_cases hstop : ((' ' :: w) ++ [' ']).getD i ' ' = ' '
    · exact ⟨[], by rw [if_pos hstop]⟩
    · exact ⟨[], by rw [if_neg hstop]⟩
  | succ f ih =>
    intro w cases_ i hw hbr h1 hnb
    rw [segLoop]
    by_cases hstop : ((' ' :: w) ++ [' ']).getD i ' ' = ' '
    · exact ⟨[], by rw [if_pos hstop]⟩
    · obtain ⟨new, two, hstep, hnext⟩ := segStep_spec w cases_ i hw hbr h1 hstop hnb
      obtain ⟨segs', hs'⟩ := ih w cases_ (i + if two then 2 else 1) hw hbr
        (by cases two <;> simp) hnext
      refine ⟨new ++ segs', ?_⟩
      rw [if_neg hstop, hstep]
      simp only [hs']

/-! ## C10, amended -/

/-- C10 as amended: every character the tokenizer admits into a word
token is consumed by a segmentation rule except the bare combining breve
when it does not directly follow a y: on every word token produced by
`Verse.tokenize` from normalized text in which each combining breve
immediately follows a y, `Token.segmentize` succeeds, so its
unrecognized-character branch is unreachable there. -/
theorem segmentize_ok_of_breves_after_y
    (original : List Char) (t : Token) (ht : t ∈ tokenize (normalize original))
    (hword : t.type_ = TokType.word) (hbr : BrevesAfterY t.lowercase_form) :
    (segmentizeToken t).isOk = true := by
  rcases tokenize_form _ t ht with ⟨w, rfl, hne, hw⟩ | ⟨c, rfl, hc⟩
  · have hlw : ∀ d ∈ (mkToken w TokType.word).lowercase_form, d ∈ WORD_CHARS := by
      intro d hd
      obtain ⟨c0, hc0, rfl⟩ := List.mem_map.mp hd
      exact hw c0 hc0
    have hfirst : ((' ' :: (mkToken w TokType.word).lowercase_form) ++ [' ']).getD 1 ' ' ≠ breve := by
      intro hb
      obtain ⟨-, hg⟩ := padded_breve hb
      obtain ⟨k, hk, -⟩ := hbr 0 (by simpa using hg)
      omega
    obtain ⟨segs, hs⟩ := segLoop_ok ((mkToken w TokType.word).lowercase_form.length + 2)
      (mkToken w TokType.word).lowercase_form (mkToken w TokType.word).original_cases 1
      hlw hbr le_rfl hfirst
    have hty : (mkToken w TokType.word).type_ = TokType.word := rfl
    simp only [segmentizeToken, hty, hs]
    rfl
  · rfl

/-- Witness for the amended C10 theorem: the word y + combining breve is
admitted by the tokenizer and segmentizes successfully. -/
theorem segmentize_ok_witness :
    ((tokenize (normalize yInput)).headD (mkToken [] TokType.other)) ∈
        tokenize (normalize yInput) ∧
    (segmentizeToken ((tokenize (normalize yInput)).headD (mkToken [] TokType.other))).isOk
      = true :=
  ⟨by decide,
    segmentize_ok_of_breves_after_y yInput _ (by decide) (by decide)
      (by
        intro j hj
        match j with
        | 0 => exact absurd hj (by decide)
        | 1 => exact ⟨0, rfl, by decide⟩
        | (k + 2) =>
          have hl : ((tokenize (normalize yInput)).headD
              (mkToken [] TokType.other)).lowercase_form = ['y', breve] := by decide
          rw [hl, List.getElem?_eq_none (by simp)] at hj
          cases hj)⟩

end Semetrika
